import Mathlib

set_option linter.unnecessarySeqFocus false

/-!
Verification of the `AdvancedDS` container (src/code.cpp).

Shallow embedding: the doubly-linked sequence store is a `List Slot` where a
`Slot` is a pair (node identity, stored value); node identities model the
`Node*` pointers (fresh identities are drawn from a `nextId` counter, which
models heap-pointer freshness).  The auxiliary indices are embedded as:

* `locs`  : `unordered_map<int, unordered_set<Node*>>` as a function from
  values to finite sets of node identities (an empty set plays the role of an
  absent entry, exactly as the code treats `locs.find(x) == end` and an empty
  set alike);
* `freq`  : `unordered_map<int,int>` as an association list (entries are
  erased when a count reaches zero, mirroring `modeDec`);
* `allVals`, `lower`, `upper` : `multiset<int>` as `Multiset Int`;
* `pool`  : `vector<Node*>` as a `List Nat` of node identities; the
  `poolPos` reverse map is implicit (`findIdx?`), which coincides with the
  source whenever node identities in the pool are distinct;
* `sz`    : the `size_t` size counter as a `Nat`.

C++ `int` values are embedded as unbounded `Int`; the only arithmetic the
source performs on stored values is comparison, plus the median average,
which the source computes in `double` (exact for halves of 32-bit sums) and
which is embedded as `ℚ`.  The reserved sentinels `INT_MIN` / `INT_MAX`
are the corresponding `Int` constants.  `getMedian`'s `quiet_NaN()` result
on an empty container is embedded as `Option.none`.

Nondeterminism: `deleteVal` and `update` pick `*locs[x].begin()`, an
unspecified member of an unordered set; both are therefore parameterised by
the picked identity, constrained to be a member of `locs[x]` (an invalid
pick behaves like the value-not-found path).  `getRandom` draws a uniform
index; it is parameterised by the draw.
-/

namespace AdvDS

def INT_MIN : Int := -(2 ^ 31)

def INT_MAX : Int := 2 ^ 31 - 1

abbrev Slot := Nat × Int

structure DS where
  seq : List Slot
  nextId : Nat
  locs : Int → Finset Nat
  freq : List (Int × Nat)
  modeVal : Int
  modeCnt : Nat
  allVals : Multiset Int
  lower : Multiset Int
  upper : Multiset Int
  pool : List Nat
  sz : Nat

/-- A default-constructed `AdvancedDS`: everything empty. -/
def emptyDS : DS :=
  { seq := [], nextId := 0, locs := fun _ => ∅, freq := [], modeVal := 0,
    modeCnt := 0, allVals := 0, lower := 0, upper := 0, pool := [], sz := 0 }

/-- The multiset of stored values of a sequence of slots. -/
def valsM (q : List Slot) : Multiset Int := (q.map Prod.snd : List Int)

/-- `traverse`: the stored values in sequence order. -/
def traverse (s : DS) : List Int := s.seq.map Prod.snd

-- ---- locs (location index) helpers ----

def locsInsert (f : Int → Finset Nat) (x : Int) (i : Nat) : Int → Finset Nat :=
  fun y => if y = x then insert i (f y) else f y

def locsErase (f : Int → Finset Nat) (x : Int) (i : Nat) : Int → Finset Nat :=
  fun y => if y = x then (f y).erase i else f y

-- ---- freq (frequency map) association-list helpers ----

def freqLookup : List (Int × Nat) → Int → Nat
  | [], _ => 0
  | (y, c) :: t, x => if y = x then c else freqLookup t x

/-- `++freq[x]` on an `unordered_map`: default-insert 0 then increment. -/
def freqInc : List (Int × Nat) → Int → List (Int × Nat)
  | [], x => [(x, 1)]
  | (y, c) :: t, x => if y = x then (y, c + 1) :: t else (y, c) :: freqInc t x

/-- `it->second--; if (it->second == 0) freq.erase(it)` (no-op on an absent key). -/
def freqDec : List (Int × Nat) → Int → List (Int × Nat)
  | [], _ => []
  | (y, c) :: t, x =>
      if y = x then (if c - 1 = 0 then t else (y, c - 1) :: t)
      else (y, c) :: freqDec t x

-- ---- mode tracking ----

/-- One step of the rare-path mode rescan loop in `modeDec`. -/
def rescanStep (b : Int × Nat) (p : Int × Nat) : Int × Nat :=
  if p.2 > b.2 ∨ (p.2 = b.2 ∧ p.1 < b.1) then p else b

/-- `modeInc(x)`: increment the frequency and update the mode cursor. -/
def modeIncDS (s : DS) (x : Int) : DS :=
  let fr := freqInc s.freq x
  let f := freqLookup fr x
  if f > s.modeCnt ∨ (f = s.modeCnt ∧ x < s.modeVal) then
    { s with freq := fr, modeCnt := f, modeVal := x }
  else
    { s with freq := fr }

/-- `modeDec(x)`: decrement the frequency; rescan the map when the tracked
mode's own count dropped (the absent-key early return is the lookup-zero
case, since entries are erased exactly when they reach zero). -/
def modeDecDS (s : DS) (x : Int) : DS :=
  if freqLookup s.freq x = 0 then s
  else
    let fr := freqDec s.freq x
    if x = s.modeVal ∧ (freqLookup fr x = 0 ∨ freqLookup fr x < s.modeCnt) then
      let r := fr.foldl rescanStep (s.modeVal, 0)
      { s with freq := fr, modeVal := r.1, modeCnt := r.2 }
    else
      { s with freq := fr }

-- ---- ordered multiset helpers (multiset<int> begin/rbegin) ----

/-- The sorted list of elements of a multiset (the iteration order of a
`multiset<int>`).  Defined via `insertionSort` so that it evaluates by
kernel reduction. -/
def msort (m : Multiset Int) : List Int :=
  Quotient.liftOn m (fun l => List.insertionSort (· ≤ ·) l) (fun l1 l2 h =>
    List.eq_of_perm_of_sorted
      ((List.perm_insertionSort _ l1).trans (h.trans (List.perm_insertionSort _ l2).symm))
      (List.sorted_insertionSort _ l1) (List.sorted_insertionSort _ l2))

/-- `*m.rbegin()` (defaulting to 0 on an empty multiset, which the source
never dereferences on the paths we verify). -/
def maxOfM (m : Multiset Int) : Int := (msort m).getLastD 0

/-- `*m.begin()` (same convention). -/
def minOfM (m : Multiset Int) : Int := (msort m).headD 0

-- ---- median halves ----

def rebalanceMedian (s : DS) : DS :=
  if Multiset.card s.upper + 1 < Multiset.card s.lower then
    { s with lower := s.lower.erase (maxOfM s.lower),
             upper := maxOfM s.lower ::ₘ s.upper }
  else if Multiset.card s.lower < Multiset.card s.upper then
    { s with upper := s.upper.erase (minOfM s.upper),
             lower := minOfM s.upper ::ₘ s.lower }
  else s

def medianAdd (s : DS) (x : Int) : DS :=
  rebalanceMedian
    (if s.lower = 0 ∨ x ≤ maxOfM s.lower then { s with lower := x ::ₘ s.lower }
     else { s with upper := x ::ₘ s.upper })

def medianRemove (s : DS) (x : Int) : DS :=
  rebalanceMedian
    (if s.lower ≠ 0 ∧ x ≤ maxOfM s.lower then
       if x ∈ s.lower then { s with lower := s.lower.erase x }
       else if x ∈ s.upper then { s with upper := s.upper.erase x }
       else s
     else
       if x ∈ s.upper then { s with upper := s.upper.erase x }
       else if x ∈ s.lower then { s with lower := s.lower.erase x }
       else s)

-- ---- random pool ----

def poolAdd (p : List Nat) (i : Nat) : List Nat := p ++ [i]

/-- Swap-remove: overwrite the found position with the last entry, pop the
back.  `findIdx?` plays the role of the `poolPos` reverse map. -/
def poolRemove (p : List Nat) (i : Nat) : List Nat :=
  match p.findIdx? (fun j => j == i) with
  | none => p
  | some idx => (p.set idx (p.getLastD 0)).dropLast

-- ---- add/remove integration routines ----

/-- The index updates shared by `addValueStructures` and the inlined loop in
`merge`: location index, frequency/mode, order-statistics multiset, median
halves (the pool and size updates differ between the two call sites and are
applied by the callers). -/
def addTracking (s : DS) (x : Int) (i : Nat) : DS :=
  let s1 := { s with locs := locsInsert s.locs x i }
  let s2 := modeIncDS s1 x
  let s3 := { s2 with allVals := x ::ₘ s2.allVals }
  medianAdd s3 x

/-- `addValueStructures(x, node)`. -/
def addValueStructures (s : DS) (x : Int) (i : Nat) : DS :=
  let s4 := addTracking s x i
  { s4 with pool := poolAdd s4.pool i, sz := s4.sz + 1 }

/-- The index removals shared by `removeValueStructures` and the inlined
removal block in `update` (which deliberately skips the pool and size). -/
def removeTracking (s : DS) (x : Int) (i : Nat) : DS :=
  let s1 := { s with locs := locsErase s.locs x i }
  let s2 := modeDecDS s1 x
  let s3 := { s2 with allVals := s2.allVals.erase x }
  medianRemove s3 x

/-- `removeValueStructures(x, node)`. -/
def removeValueStructures (s : DS) (x : Int) (i : Nat) : DS :=
  let s4 := removeTracking s x i
  { s4 with pool := poolRemove s4.pool i, sz := s4.sz - 1 }

/-- `rebuildAll()`: clear every auxiliary index and re-add each slot of the
sequence.  Faithful to the source, `sz` is NOT reset first, yet
`addValueStructures` increments it for every slot. -/
def rebuildAll (s : DS) : DS :=
  let base := { s with locs := fun _ => (∅ : Finset Nat), freq := [],
                       allVals := (0 : Multiset Int), lower := (0 : Multiset Int),
                       upper := (0 : Multiset Int), pool := ([] : List Nat),
                       modeCnt := 0, modeVal := 0 }
  s.seq.foldl (fun t p => addValueStructures t p.2 p.1) base

-- ---- public operations ----

def pushBack (s : DS) (x : Int) : DS :=
  addValueStructures
    { s with seq := s.seq ++ [(s.nextId, x)], nextId := s.nextId + 1 } x s.nextId

def pushFront (s : DS) (x : Int) : DS :=
  addValueStructures
    { s with seq := (s.nextId, x) :: s.seq, nextId := s.nextId + 1 } x s.nextId

def popBack (s : DS) : DS :=
  match s.seq.getLast? with
  | none => s
  | some p => removeValueStructures { s with seq := s.seq.dropLast } p.2 p.1

def popFront (s : DS) : DS :=
  match s.seq with
  | [] => s
  | p :: t => removeValueStructures { s with seq := t } p.2 p.1

def getFrequency (s : DS) (x : Int) : Nat := freqLookup s.freq x

def getMin (s : DS) : Int := if s.allVals = 0 then INT_MAX else minOfM s.allVals

def getMax (s : DS) : Int := if s.allVals = 0 then INT_MIN else maxOfM s.allVals

/-- `getMedian`; the `quiet_NaN()` on an empty container is `none`, the
`double` average is an exact rational. -/
def getMedian (s : DS) : Option ℚ :=
  if s.sz = 0 then none
  else if Multiset.card s.upper < Multiset.card s.lower then
    some ((maxOfM s.lower : ℚ))
  else
    some (((maxOfM s.lower : ℚ) + (minOfM s.upper : ℚ)) / 2)

def getMode (s : DS) : Int := if s.modeCnt = 0 then INT_MIN else s.modeVal

/-- `node->val` for a node identity taken from the pool. -/
def valOfId (s : DS) (i : Nat) : Int :=
  match s.seq.find? (fun p => p.1 == i) with
  | none => 0
  | some p => p.2

/-- `getRandom`, parameterised by the random draw `r`. -/
def getRandom (s : DS) (r : Nat) : Int :=
  if s.pool = [] then INT_MIN
  else valOfId s (s.pool.getD (r % s.pool.length) 0)

/-- `deleteVal(x)`, parameterised by the picked member of `locs[x]`. -/
def deleteVal (s : DS) (x : Int) (pick : Nat) : DS × Bool :=
  if pick ∈ s.locs x then
    (removeValueStructures
      { s with seq := s.seq.eraseP (fun p => p.1 == pick) } x pick, true)
  else (s, false)

/-- `update(oldVal, newVal)`, parameterised by the picked member of
`locs[oldVal]`.  The removal block touches neither the pool nor `sz`; the
final `addValueStructures` touches both. -/
def update (s : DS) (oldVal newVal : Int) (pick : Nat) : DS × Bool :=
  if pick ∈ s.locs oldVal then
    let s4 := removeTracking s oldVal pick
    let s5 := { s4 with
      seq := s4.seq.map (fun p => if p.1 = pick then (p.1, newVal) else p) }
    (addValueStructures s5 newVal pick, true)
  else (s, false)

def reverseDS (s : DS) : DS := { s with seq := s.seq.reverse }

/-- `rotate(k)`: right rotation; the split point is computed from `sz`. -/
def rotate (s : DS) (k : Nat) : DS :=
  if s.sz = 0 then s
  else
    let k2 := k % s.sz
    if k2 = 0 then s
    else { s with seq := s.seq.drop (s.sz - k2) ++ s.seq.take (s.sz - k2) }

/-- The loop of `removeDuplicates`: walk the original node chain, removing a
node whose value was already seen. -/
def removeDupGo : List Slot → Finset Int → DS → DS
  | [], _, s => s
  | p :: t, seen, s =>
      if p.2 ∈ seen then
        removeDupGo t seen
          (removeValueStructures
            { s with seq := s.seq.eraseP (fun q => q.1 == p.1) } p.2 p.1)
      else removeDupGo t (insert p.2 seen) s

def removeDuplicates (s : DS) : DS := removeDupGo s.seq ∅ s

/-- Write a list of values back into the existing slots in sequence order
(slot identities stay, values are overwritten). -/
def writeBack (s : DS) (a : List Int) : DS :=
  { s with seq := List.zipWith (fun p v => (p.1, v)) s.seq a }

def sortAscending (s : DS) : DS :=
  if s.sz ≤ 1 then s
  else rebuildAll (writeBack s (List.insertionSort (· ≤ ·) (traverse s)))

/-- `sort(a.rbegin(), a.rend())`: arrange in non-increasing order. -/
def sortDescending (s : DS) : DS :=
  if s.sz ≤ 1 then s
  else rebuildAll (writeBack s (List.insertionSort (· ≤ ·) (traverse s)).reverse)

/-- Modelled from the spec: `std::next_permutation` (C++ standard library,
not part of this repository's sources) transforms the range into the
lexicographically next greater arrangement of its elements and returns true
if one exists; otherwise it transforms the range into the first (ascending
sorted) arrangement and returns false. -/
def nextPermList (l : List Int) : List Int × Bool :=
  match (l.permutations'.filter (fun m => decide (l < m))).min? with
  | some m => (m, true)
  | none => (List.insertionSort (· ≤ ·) l, false)

/-- Modelled from the spec: `std::prev_permutation` transforms the range
into the lexicographically previous arrangement and returns true if one
exists; otherwise it transforms the range into the last (descending sorted)
arrangement and returns false. -/
def prevPermList (l : List Int) : List Int × Bool :=
  match (l.permutations'.filter (fun m => decide (m < l))).max? with
  | some m => (m, true)
  | none => ((List.insertionSort (· ≤ ·) l).reverse, false)

def nextPermutation (s : DS) : DS × Bool :=
  if s.sz ≤ 1 then (s, false)
  else
    let r := nextPermList (traverse s)
    (rebuildAll (writeBack s r.1), r.2)

def prevPermutation (s : DS) : DS × Bool :=
  if s.sz ≤ 1 then (s, false)
  else
    let r := prevPermList (traverse s)
    (rebuildAll (writeBack s r.1), r.2)

/-- `clear()` (also used to model the clearing of `other` in `merge`). -/
def clearDS (s : DS) : DS :=
  { seq := [], nextId := s.nextId, locs := fun _ => ∅, freq := [],
    modeVal := 0, modeCnt := 0, allVals := 0, lower := 0, upper := 0,
    pool := [], sz := 0 }

/-- The per-element body of the integration loop in `merge`: every index
update of `addValueStructures` except the `sz` increment. -/
def mergeStep (t : DS) (p : Slot) : DS :=
  let t4 := addTracking t p.2 p.1
  { t4 with pool := poolAdd t4.pool p.1 }

/-- `merge(other)`: returns (the receiving container, the emptied donor).
The inlined per-element loop updates every index except `sz` (which was
added up front).  The resulting `nextId` is the max of the two counters,
modelling that freshly allocated nodes are distinct from all live ones. -/
def mergeDS (s o : DS) : DS × DS :=
  if o.sz = 0 then (s, o)
  else
    let s0 := if s.sz = 0 then { s with seq := o.seq }
              else { s with seq := s.seq ++ o.seq }
    let s1 := { s0 with sz := s0.sz + o.sz, nextId := max s.nextId o.nextId }
    let s2 := o.seq.foldl mergeStep s1
    (rebalanceMedian s2, clearDS o)

/-- `split(k)`: returns (this container afterwards, the returned container). -/
def splitDS (s : DS) (k : Nat) : DS × DS :=
  if s.sz ≤ k then (s, emptyDS)
  else if k = 0 then
    let r := mergeDS emptyDS s
    (r.2, r.1)
  else
    let leftSeq := s.seq.take k
    let rightSeq := s.seq.drop k
    let left0 := { s with seq := leftSeq, sz := leftSeq.length }
    let right0 := { emptyDS with seq := rightSeq, sz := rightSeq.length,
                                 nextId := s.nextId }
    (rebuildAll left0, rebuildAll right0)

-- ---- iterated permutation stepping ----

/-- The container after `n` successive `nextPermutation` calls. -/
def iterNext (s : DS) : Nat → DS
  | 0 => s
  | n + 1 => (nextPermutation (iterNext s n)).1

/-- All distinct arrangements of the multiset of `l`, in lexicographic
order. -/
def sortedPerms (l : List Int) : List (List Int) :=
  List.insertionSort (· ≤ ·) l.permutations'.dedup

/-- The pure counterpart of `iterNext`: the value list after `n` successive
`std::next_permutation` steps. -/
def iterPermList (l : List Int) : Nat → List Int
  | 0 => l
  | n + 1 => (nextPermList (iterPermList l n)).1

-- ---- specification-side definitions (for comparison with the code) ----

/-- The textbook median of a list of values: middle element of the sorted
sequence for odd length, exact average of the two middle elements for even
length. -/
def specMedian (vals : List Int) : ℚ :=
  if vals.length % 2 = 1 then
    ((List.insertionSort (· ≤ ·) vals).getD (vals.length / 2) 0 : ℚ)
  else
    (((List.insertionSort (· ≤ ·) vals).getD (vals.length / 2 - 1) 0 : ℚ) +
      ((List.insertionSort (· ≤ ·) vals).getD (vals.length / 2) 0 : ℚ)) / 2

/-- `v` is the brute-force mode of the container: a stored value of maximal
occurrence count, smallest among the tied ones. -/
def IsModeOf (s : DS) (v : Int) : Prop :=
  v ∈ traverse s ∧
    ∀ y ∈ traverse s,
      (traverse s).count y ≤ (traverse s).count v ∧
        ((traverse s).count y = (traverse s).count v → v ≤ y)

-- ---- invariants ----

/-- `r` dominates `p` in the mode rescan order: strictly larger count, or
equal count and a value at most as large.  This is the partial "best so
far" relation computed by the rescan loop. -/
def domBy (r p : Int × Nat) : Prop := p.2 < r.2 ∨ (p.2 = r.2 ∧ r.1 ≤ p.1)

/-- The mode cursor `(mv, mc)` is correct for the value multiset `m`:
`mc` is the maximal frequency and `mv` the smallest value attaining it. -/
def ModeOk (m : Multiset Int) (mv : Int) (mc : Nat) : Prop :=
  (m = 0 → mc = 0) ∧
    (m ≠ 0 → m.count mv = mc ∧ ∀ x ∈ m, m.count x ≤ mc ∧ (m.count x = mc → mv ≤ x))

/-- The auxiliary indices of `s` are consistent with the slot list `q`
(everything except the pool and the size counter, which the source lets
drift — see the C1 theorem). -/
structure Consistent (q : List Slot) (s : DS) : Prop where
  locs_ok : ∀ x i, i ∈ s.locs x ↔ (i, x) ∈ q
  freq_nodup : (s.freq.map Prod.fst).Nodup
  freq_pos : ∀ p ∈ s.freq, 0 < p.2
  freq_ok : ∀ x, freqLookup s.freq x = (valsM q).count x
  vals_ok : s.allVals = valsM q
  med_sum : s.lower + s.upper = valsM q
  med_le : Multiset.card s.upper ≤ Multiset.card s.lower
  med_ge : Multiset.card s.lower ≤ Multiset.card s.upper + 1
  med_cross : ∀ a ∈ s.lower, ∀ b ∈ s.upper, a ≤ b
  mode_ok : ModeOk (valsM q) s.modeVal s.modeCnt

/-- The inductive invariant of reachable containers.  Note what is NOT
here: `sz = |seq|` and `pool = seq` identities are not preserved by the
source (`update` and `rebuildAll` break them); only the inequalities
survive. -/
structure Inv (s : DS) : Prop where
  con : Consistent s.seq s
  sz_ge : s.seq.length ≤ s.sz
  ids_nodup : (s.seq.map Prod.fst).Nodup
  ids_lt : ∀ j ∈ s.seq.map Prod.fst, j < s.nextId
  pool_sub : (s.seq.map Prod.fst : Multiset Nat) ≤ (s.pool : Multiset Nat)
  pool_le : s.pool.length ≤ s.sz

/-- Containers reachable from a default-constructed one by the public
operations.  `deleteVal`/`update` steps range over every possible pick of
`locs[x].begin()`; a `merge` step requires the two containers' node
identities to be distinct, which models the disjointness of live heap
pointers. -/
inductive Reachable : DS → Prop where
  | ofEmpty : Reachable emptyDS
  | ofPushBack (s : DS) (x : Int) : Reachable s → Reachable (pushBack s x)
  | ofPushFront (s : DS) (x : Int) : Reachable s → Reachable (pushFront s x)
  | ofPopBack (s : DS) : Reachable s → Reachable (popBack s)
  | ofPopFront (s : DS) : Reachable s → Reachable (popFront s)
  | ofDeleteVal (s : DS) (x : Int) (pick : Nat) :
      Reachable s → Reachable (deleteVal s x pick).1
  | ofUpdate (s : DS) (a b : Int) (pick : Nat) :
      Reachable s → Reachable (update s a b pick).1
  | ofReverse (s : DS) : Reachable s → Reachable (reverseDS s)
  | ofRotate (s : DS) (k : Nat) : Reachable s → Reachable (rotate s k)
  | ofRemoveDuplicates (s : DS) : Reachable s → Reachable (removeDuplicates s)
  | ofSortAscending (s : DS) : Reachable s → Reachable (sortAscending s)
  | ofSortDescending (s : DS) : Reachable s → Reachable (sortDescending s)
  | ofNextPermutation (s : DS) : Reachable s → Reachable (nextPermutation s).1
  | ofPrevPermutation (s : DS) : Reachable s → Reachable (prevPermutation s).1
  | ofMergeLeft (s o : DS) : Reachable s → Reachable o →
      (∀ i ∈ s.seq.map Prod.fst, i ∉ o.seq.map Prod.fst) →
      Reachable (mergeDS s o).1
  | ofMergeRight (s o : DS) : Reachable s → Reachable o →
      (∀ i ∈ s.seq.map Prod.fst, i ∉ o.seq.map Prod.fst) →
      Reachable (mergeDS s o).2
  | ofSplitLeft (s : DS) (k : Nat) : Reachable s → Reachable (splitDS s k).1
  | ofSplitRight (s : DS) (k : Nat) : Reachable s → Reachable (splitDS s k).2
  | ofClear (s : DS) : Reachable s → Reachable (clearDS s)

/-- The full behaviour `merge` promises: the receiver's traversal becomes
its old sequence followed by the donor's, sizes add, the donor is left
empty with every index cleared, and a size-zero donor makes the call a
no-op. -/
def MergeSpec (s o : DS) : Prop :=
  traverse (mergeDS s o).1 = traverse s ++ traverse o ∧
  (mergeDS s o).1.seq = s.seq ++ o.seq ∧
  (mergeDS s o).1.sz = s.sz + o.sz ∧
  (mergeDS s o).2.seq = [] ∧
  (mergeDS s o).2.sz = 0 ∧
  (mergeDS s o).2.freq = [] ∧
  (mergeDS s o).2.pool = [] ∧
  (∀ x : Int, (mergeDS s o).2.locs x = ∅) ∧
  (mergeDS s o).2.allVals = 0 ∧
  (mergeDS s o).2.lower = 0 ∧
  (mergeDS s o).2.upper = 0 ∧
  (o.sz = 0 → mergeDS s o = (s, o))

/-- The corrected permutation-cycle behaviour: starting from the
ascending-sorted container, successive `nextPermutation` calls visit the
distinct permutations of the multiset in lexicographic order exactly once,
returning true until the last one; the call on the last (descending)
permutation returns false and leaves the sequence ASCENDING-sorted (the
standard `std::next_permutation` reset — not descending, as claimed); and
`prevPermutation` reports exactly whether a lexicographically smaller
arrangement exists. -/
def PermCycleSpec (s : DS) : Prop :=
  (∀ i, i < (sortedPerms (traverse s)).length →
      traverse (iterNext (sortAscending s) i)
        = (sortedPerms (traverse s)).getD i []) ∧
  (∀ i, i + 1 < (sortedPerms (traverse s)).length →
      (nextPermutation (iterNext (sortAscending s) i)).2 = true) ∧
  (nextPermutation (iterNext (sortAscending s)
      ((sortedPerms (traverse s)).length - 1))).2 = false ∧
  traverse (iterNext (sortAscending s) (sortedPerms (traverse s)).length)
      = List.insertionSort (· ≤ ·) (traverse s) ∧
  ((prevPermutation s).2 = true ↔ ∃ m, m.Perm (traverse s) ∧ m < traverse s)

/-!  ## Frame lemmas: which fields each helper routine leaves untouched  -/

@[simp] theorem modeIncDS_seq (s : DS) (x : Int) : (modeIncDS s x).seq = s.seq := by
  simp only [modeIncDS]
  split <;> rfl

@[simp] theorem modeIncDS_locs (s : DS) (x : Int) : (modeIncDS s x).locs = s.locs := by
  simp only [modeIncDS]
  split <;> rfl

@[simp] theorem modeIncDS_allVals (s : DS) (x : Int) :
    (modeIncDS s x).allVals = s.allVals := by
  simp only [modeIncDS]
  split <;> rfl

@[simp] theorem modeIncDS_lower (s : DS) (x : Int) : (modeIncDS s x).lower = s.lower := by
  simp only [modeIncDS]
  split <;> rfl

@[simp] theorem modeIncDS_upper (s : DS) (x : Int) : (modeIncDS s x).upper = s.upper := by
  simp only [modeIncDS]
  split <;> rfl

@[simp] theorem modeIncDS_pool (s : DS) (x : Int) : (modeIncDS s x).pool = s.pool := by
  simp only [modeIncDS]
  split <;> rfl

@[simp] theorem modeIncDS_sz (s : DS) (x : Int) : (modeIncDS s x).sz = s.sz := by
  simp only [modeIncDS]
  split <;> rfl

@[simp] theorem modeIncDS_nextId (s : DS) (x : Int) :
    (modeIncDS s x).nextId = s.nextId := by
  simp only [modeIncDS]
  split <;> rfl

@[simp] theorem modeIncDS_freq (s : DS) (x : Int) :
    (modeIncDS s x).freq = freqInc s.freq x := by
  simp only [modeIncDS]
  split <;> rfl

@[simp] theorem modeDecDS_seq (s : DS) (x : Int) : (modeDecDS s x).seq = s.seq := by
  simp only [modeDecDS]
  split <;> (try rfl) <;> split <;> rfl

@[simp] theorem modeDecDS_locs (s : DS) (x : Int) : (modeDecDS s x).locs = s.locs := by
  simp only [modeDecDS]
  split <;> (try rfl) <;> split <;> rfl

@[simp] theorem modeDecDS_allVals (s : DS) (x : Int) :
    (modeDecDS s x).allVals = s.allVals := by
  simp only [modeDecDS]
  split <;> (try rfl) <;> split <;> rfl

@[simp] theorem modeDecDS_lower (s : DS) (x : Int) : (modeDecDS s x).lower = s.lower := by
  simp only [modeDecDS]
  split <;> (try rfl) <;> split <;> rfl

@[simp] theorem modeDecDS_upper (s : DS) (x : Int) : (modeDecDS s x).upper = s.upper := by
  simp only [modeDecDS]
  split <;> (try rfl) <;> split <;> rfl

@[simp] theorem modeDecDS_pool (s : DS) (x : Int) : (modeDecDS s x).pool = s.pool := by
  simp only [modeDecDS]
  split <;> (try rfl) <;> split <;> rfl

@[simp] theorem modeDecDS_sz (s : DS) (x : Int) : (modeDecDS s x).sz = s.sz := by
  simp only [modeDecDS]
  split <;> (try rfl) <;> split <;> rfl

@[simp] theorem modeDecDS_nextId (s : DS) (x : Int) :
    (modeDecDS s x).nextId = s.nextId := by
  simp only [modeDecDS]
  split <;> (try rfl) <;> split <;> rfl

@[simp] theorem rebalanceMedian_seq (s : DS) : (rebalanceMedian s).seq = s.seq := by
  simp only [rebalanceMedian]
  split <;> (try rfl) <;> split <;> rfl

@[simp] theorem rebalanceMedian_locs (s : DS) : (rebalanceMedian s).locs = s.locs := by
  simp only [rebalanceMedian]
  split <;> (try rfl) <;> split <;> rfl

@[simp] theorem rebalanceMedian_freq (s : DS) : (rebalanceMedian s).freq = s.freq := by
  simp only [rebalanceMedian]
  split <;> (try rfl) <;> split <;> rfl

@[simp] theorem rebalanceMedian_modeVal (s : DS) :
    (rebalanceMedian s).modeVal = s.modeVal := by
  simp only [rebalanceMedian]
  split <;> (try rfl) <;> split <;> rfl

@[simp] theorem rebalanceMedian_modeCnt (s : DS) :
    (rebalanceMedian s).modeCnt = s.modeCnt := by
  simp only [rebalanceMedian]
  split <;> (try rfl) <;> split <;> rfl

@[simp] theorem rebalanceMedian_allVals (s : DS) :
    (rebalanceMedian s).allVals = s.allVals := by
  simp only [rebalanceMedian]
  split <;> (try rfl) <;> split <;> rfl

@[simp] theorem rebalanceMedian_pool (s : DS) : (rebalanceMedian s).pool = s.pool := by
  simp only [rebalanceMedian]
  split <;> (try rfl) <;> split <;> rfl

@[simp] theorem rebalanceMedian_sz (s : DS) : (rebalanceMedian s).sz = s.sz := by
  simp only [rebalanceMedian]
  split <;> (try rfl) <;> split <;> rfl

@[simp] theorem rebalanceMedian_nextId (s : DS) :
    (rebalanceMedian s).nextId = s.nextId := by
  simp only [rebalanceMedian]
  split <;> (try rfl) <;> split <;> rfl

@[simp] theorem medianAdd_seq (s : DS) (x : Int) : (medianAdd s x).seq = s.seq := by
  simp only [medianAdd]
  split <;> simp

@[simp] theorem medianAdd_locs (s : DS) (x : Int) : (medianAdd s x).locs = s.locs := by
  simp only [medianAdd]
  split <;> simp

@[simp] theorem medianAdd_freq (s : DS) (x : Int) : (medianAdd s x).freq = s.freq := by
  simp only [medianAdd]
  split <;> simp

@[simp] theorem medianAdd_modeVal (s : DS) (x : Int) :
    (medianAdd s x).modeVal = s.modeVal := by
  simp only [medianAdd]
  split <;> simp

@[simp] theorem medianAdd_modeCnt (s : DS) (x : Int) :
    (medianAdd s x).modeCnt = s.modeCnt := by
  simp only [medianAdd]
  split <;> simp

@[simp] theorem medianAdd_allVals (s : DS) (x : Int) :
    (medianAdd s x).allVals = s.allVals := by
  simp only [medianAdd]
  split <;> simp

@[simp] theorem medianAdd_pool (s : DS) (x : Int) : (medianAdd s x).pool = s.pool := by
  simp only [medianAdd]
  split <;> simp

@[simp] theorem medianAdd_sz (s : DS) (x : Int) : (medianAdd s x).sz = s.sz := by
  simp only [medianAdd]
  split <;> simp

@[simp] theorem medianAdd_nextId (s : DS) (x : Int) :
    (medianAdd s x).nextId = s.nextId := by
  simp only [medianAdd]
  split <;> simp

@[simp] theorem medianRemove_seq (s : DS) (x : Int) : (medianRemove s x).seq = s.seq := by
  simp only [medianRemove]
  split <;> split <;> (try split) <;> simp

@[simp] theorem medianRemove_locs (s : DS) (x : Int) :
    (medianRemove s x).locs = s.locs := by
  simp only [medianRemove]
  split <;> split <;> (try split) <;> simp

@[simp] theorem medianRemove_freq (s : DS) (x : Int) :
    (medianRemove s x).freq = s.freq := by
  simp only [medianRemove]
  split <;> split <;> (try split) <;> simp

@[simp] theorem medianRemove_modeVal (s : DS) (x : Int) :
    (medianRemove s x).modeVal = s.modeVal := by
  simp only [medianRemove]
  split <;> split <;> (try split) <;> simp

@[simp] theorem medianRemove_modeCnt (s : DS) (x : Int) :
    (medianRemove s x).modeCnt = s.modeCnt := by
  simp only [medianRemove]
  split <;> split <;> (try split) <;> simp

@[simp] theorem medianRemove_allVals (s : DS) (x : Int) :
    (medianRemove s x).allVals = s.allVals := by
  simp only [medianRemove]
  split <;> split <;> (try split) <;> simp

@[simp] theorem medianRemove_pool (s : DS) (x : Int) :
    (medianRemove s x).pool = s.pool := by
  simp only [medianRemove]
  split <;> split <;> (try split) <;> simp

@[simp] theorem medianRemove_sz (s : DS) (x : Int) : (medianRemove s x).sz = s.sz := by
  simp only [medianRemove]
  split <;> split <;> (try split) <;> simp

@[simp] theorem medianRemove_nextId (s : DS) (x : Int) :
    (medianRemove s x).nextId = s.nextId := by
  simp only [medianRemove]
  split <;> split <;> (try split) <;> simp

@[simp] theorem addTracking_seq (s : DS) (x : Int) (i : Nat) :
    (addTracking s x i).seq = s.seq := by
  simp [addTracking]

@[simp] theorem addTracking_pool (s : DS) (x : Int) (i : Nat) :
    (addTracking s x i).pool = s.pool := by
  simp [addTracking]

@[simp] theorem addTracking_sz (s : DS) (x : Int) (i : Nat) :
    (addTracking s x i).sz = s.sz := by
  simp [addTracking]

@[simp] theorem addTracking_nextId (s : DS) (x : Int) (i : Nat) :
    (addTracking s x i).nextId = s.nextId := by
  simp [addTracking]

@[simp] theorem addVS_seq (s : DS) (x : Int) (i : Nat) :
    (addValueStructures s x i).seq = s.seq := by
  simp [addValueStructures]

@[simp] theorem addVS_pool (s : DS) (x : Int) (i : Nat) :
    (addValueStructures s x i).pool = s.pool ++ [i] := by
  simp [addValueStructures, poolAdd]

@[simp] theorem addVS_sz (s : DS) (x : Int) (i : Nat) :
    (addValueStructures s x i).sz = s.sz + 1 := by
  simp [addValueStructures]

@[simp] theorem addVS_nextId (s : DS) (x : Int) (i : Nat) :
    (addValueStructures s x i).nextId = s.nextId := by
  simp [addValueStructures]

@[simp] theorem removeTracking_seq (s : DS) (x : Int) (i : Nat) :
    (removeTracking s x i).seq = s.seq := by
  simp [removeTracking]

@[simp] theorem removeTracking_pool (s : DS) (x : Int) (i : Nat) :
    (removeTracking s x i).pool = s.pool := by
  simp [removeTracking]

@[simp] theorem removeTracking_sz (s : DS) (x : Int) (i : Nat) :
    (removeTracking s x i).sz = s.sz := by
  simp [removeTracking]

@[simp] theorem removeTracking_nextId (s : DS) (x : Int) (i : Nat) :
    (removeTracking s x i).nextId = s.nextId := by
  simp [removeTracking]

@[simp] theorem removeVS_seq (s : DS) (x : Int) (i : Nat) :
    (removeValueStructures s x i).seq = s.seq := by
  simp [removeValueStructures]

@[simp] theorem removeVS_pool (s : DS) (x : Int) (i : Nat) :
    (removeValueStructures s x i).pool = poolRemove s.pool i := by
  simp [removeValueStructures]

@[simp] theorem removeVS_sz (s : DS) (x : Int) (i : Nat) :
    (removeValueStructures s x i).sz = s.sz - 1 := by
  simp [removeValueStructures]

@[simp] theorem removeVS_nextId (s : DS) (x : Int) (i : Nat) :
    (removeValueStructures s x i).nextId = s.nextId := by
  simp [removeValueStructures]

theorem foldl_addVS_seq (l : List Slot) (t : DS) :
    (l.foldl (fun u p => addValueStructures u p.2 p.1) t).seq = t.seq := by
  induction l generalizing t with
  | nil => rfl
  | cons p r ih => simp [List.foldl_cons, ih]

theorem foldl_addVS_sz (l : List Slot) (t : DS) :
    (l.foldl (fun u p => addValueStructures u p.2 p.1) t).sz = t.sz + l.length := by
  induction l generalizing t with
  | nil => rfl
  | cons p r ih =>
      simp [List.foldl_cons, ih]
      omega

theorem foldl_addVS_nextId (l : List Slot) (t : DS) :
    (l.foldl (fun u p => addValueStructures u p.2 p.1) t).nextId = t.nextId := by
  induction l generalizing t with
  | nil => rfl
  | cons p r ih => simp [List.foldl_cons, ih]

@[simp] theorem rebuildAll_seq (s : DS) : (rebuildAll s).seq = s.seq := by
  simp [rebuildAll, foldl_addVS_seq]

@[simp] theorem rebuildAll_sz (s : DS) : (rebuildAll s).sz = s.sz + s.seq.length := by
  simp [rebuildAll, foldl_addVS_sz]

@[simp] theorem rebuildAll_nextId (s : DS) : (rebuildAll s).nextId = s.nextId := by
  simp [rebuildAll, foldl_addVS_nextId]

@[simp] theorem mergeStep_seq (t : DS) (p : Slot) : (mergeStep t p).seq = t.seq := by
  simp [mergeStep]

@[simp] theorem mergeStep_sz (t : DS) (p : Slot) : (mergeStep t p).sz = t.sz := by
  simp [mergeStep]

@[simp] theorem mergeStep_nextId (t : DS) (p : Slot) :
    (mergeStep t p).nextId = t.nextId := by
  simp [mergeStep]

theorem foldl_mergeStep_seq (l : List Slot) (t : DS) :
    (l.foldl mergeStep t).seq = t.seq := by
  induction l generalizing t with
  | nil => rfl
  | cons p r ih => simp [List.foldl_cons, ih]

theorem foldl_mergeStep_sz (l : List Slot) (t : DS) :
    (l.foldl mergeStep t).sz = t.sz := by
  induction l generalizing t with
  | nil => rfl
  | cons p r ih => simp [List.foldl_cons, ih]

theorem foldl_mergeStep_nextId (l : List Slot) (t : DS) :
    (l.foldl mergeStep t).nextId = t.nextId := by
  induction l generalizing t with
  | nil => rfl
  | cons p r ih => simp [List.foldl_cons, ih]

/-!  ## Generic list helpers  -/

theorem zip_keepFst_snd (q : List Slot) :
    ∀ a : List Int, q.length = a.length →
      (List.zipWith (fun p v => (p.1, v)) q a).map Prod.snd = a := by
  induction q with
  | nil =>
      intro a h
      cases a with
      | nil => rfl
      | cons v b => simp at h
  | cons p t ih =>
      intro a h
      cases a with
      | nil => simp at h
      | cons v b =>
          simp only [List.zipWith_cons_cons, List.map_cons]
          rw [ih b (by simpa using h)]

theorem zip_keepFst_fst (q : List Slot) :
    ∀ a : List Int, q.length = a.length →
      (List.zipWith (fun p v => (p.1, v)) q a).map Prod.fst = q.map Prod.fst := by
  induction q with
  | nil => intro a h; rfl
  | cons p t ih =>
      intro a h
      cases a with
      | nil => simp at h
      | cons v b =>
          simp only [List.zipWith_cons_cons, List.map_cons]
          rw [ih b (by simpa using h)]

theorem sorted_of_length_le_one {r : Int → Int → Prop} {l : List Int}
    (h : l.length ≤ 1) : List.Sorted r l := by
  match l with
  | [] => exact List.sorted_nil
  | [a] => exact List.sorted_singleton a
  | a :: b :: t => simp at h

/-!  ## C1 and C2  -/

/-- C1: FALSE of the code — the aggregate size invariant does not survive
every public operation.  `rebuildAll` does not reset `sz` while
`addValueStructures` increments it for every re-added slot, so
`sortAscending` on the two-element container 3,1 leaves `sz = 4` although
the sequence, the order-statistics multiset and the pool all have two
entries; likewise `update` re-inserts the updated slot into the random pool
without having removed it and increments `sz`, so after `pushBack 1;
update(1,2)` the counter is 2 and the pool holds the single slot twice. -/
theorem C1_aggregate_invariant_fails :
    (sortAscending (pushBack (pushBack emptyDS 3) 1)).sz = 4 ∧
      (sortAscending (pushBack (pushBack emptyDS 3) 1)).seq.length = 2 ∧
      Multiset.card (sortAscending (pushBack (pushBack emptyDS 3) 1)).allVals = 2 ∧
      (sortAscending (pushBack (pushBack emptyDS 3) 1)).pool.length = 2 ∧
      ((sortAscending (pushBack (pushBack emptyDS 3) 1)).freq.map Prod.snd).sum = 2 ∧
      (update (pushBack emptyDS 1) 1 2 0).2 = true ∧
      (update (pushBack emptyDS 1) 1 2 0).1.sz = 2 ∧
      (update (pushBack emptyDS 1) 1 2 0).1.seq.length = 1 ∧
      (update (pushBack emptyDS 1) 1 2 0).1.pool = [0, 0] := by
  decide

/-- C2: FALSE of the code — empty-container queries are not surfaced as a
distinguishable absent value.  `getMin`, `getMax`, `getMode` and
`getRandom` return the reserved sentinels `INT_MAX` / `INT_MIN`, which
collide with the same queries on a container legitimately storing that
sentinel value. -/
theorem C2_sentinel_collision :
    getMin emptyDS = INT_MAX ∧
      getMin (pushBack emptyDS INT_MAX) = INT_MAX ∧
      getMax emptyDS = INT_MIN ∧
      getMax (pushBack emptyDS INT_MIN) = INT_MIN ∧
      getMode emptyDS = INT_MIN ∧
      getMode (pushBack emptyDS INT_MIN) = INT_MIN ∧
      getRandom emptyDS 0 = INT_MIN ∧
      getRandom (pushBack emptyDS INT_MIN) 0 = INT_MIN := by
  decide

/-!  ## C7: sortAscending / sortDescending  -/

theorem sortAscending_spec (s : DS) (h : s.seq.length ≤ s.sz) :
    traverse (sortAscending s) = List.insertionSort (· ≤ ·) (traverse s) ∧
      (sortAscending s).seq.map Prod.fst = s.seq.map Prod.fst := by
  unfold sortAscending
  by_cases h1 : s.sz ≤ 1
  · rw [if_pos h1]
    have hl : s.seq.length ≤ 1 := le_trans h h1
    constructor
    · match hq : s.seq, hl with
      | [], _ => simp [traverse, hq]
      | [p], _ => simp [traverse, hq, List.insertionSort]
    · rfl
  · rw [if_neg h1]
    have hlen : (List.insertionSort (· ≤ ·) (traverse s)).length = s.seq.length := by
      rw [List.length_insertionSort]
      simp [traverse]
    constructor
    · show (rebuildAll _).seq.map Prod.snd = _
      rw [rebuildAll_seq]
      exact zip_keepFst_snd s.seq _ hlen.symm
    · rw [rebuildAll_seq]
      exact zip_keepFst_fst s.seq _ hlen.symm

theorem sortDescending_spec (s : DS) (h : s.seq.length ≤ s.sz) :
    traverse (sortDescending s) = (List.insertionSort (· ≤ ·) (traverse s)).reverse ∧
      (sortDescending s).seq.map Prod.fst = s.seq.map Prod.fst := by
  unfold sortDescending
  by_cases h1 : s.sz ≤ 1
  · rw [if_pos h1]
    have hl : s.seq.length ≤ 1 := le_trans h h1
    constructor
    · match hq : s.seq, hl with
      | [], _ => simp [traverse, hq]
      | [p], _ => simp [traverse, hq, List.insertionSort]
    · rfl
  · rw [if_neg h1]
    have hlen : (List.insertionSort (· ≤ ·) (traverse s)).reverse.length
        = s.seq.length := by
      rw [List.length_reverse, List.length_insertionSort]
      simp [traverse]
    constructor
    · show (rebuildAll _).seq.map Prod.snd = _
      rw [rebuildAll_seq]
      exact zip_keepFst_snd s.seq _ hlen.symm
    · rw [rebuildAll_seq]
      exact zip_keepFst_fst s.seq _ hlen.symm

/-- C7: after `sortAscending` the traversal is a non-decreasing arrangement
of exactly the original multiset of values, with the slot identities in
their original positions and only the stored values rewritten;
`sortDescending` is the mirror (non-increasing, same multiset, same
slots). -/
theorem C7_sort_order_preservation (s : DS) (h : s.seq.length ≤ s.sz) :
    List.Sorted (· ≤ ·) (traverse (sortAscending s)) ∧
      valsM (sortAscending s).seq = valsM s.seq ∧
      (sortAscending s).seq.map Prod.fst = s.seq.map Prod.fst ∧
      List.Sorted (· ≥ ·) (traverse (sortDescending s)) ∧
      valsM (sortDescending s).seq = valsM s.seq ∧
      (sortDescending s).seq.map Prod.fst = s.seq.map Prod.fst := by
  obtain ⟨ha1, ha2⟩ := sortAscending_spec s h
  obtain ⟨hd1, hd2⟩ := sortDescending_spec s h
  refine ⟨?_, ?_, ha2, ?_, ?_, hd2⟩
  · rw [ha1]
    exact List.sorted_insertionSort _ _
  · show ((sortAscending s).seq.map Prod.snd : Multiset Int) = _
    rw [show (sortAscending s).seq.map Prod.snd = traverse (sortAscending s) from rfl,
        ha1]
    exact Multiset.coe_eq_coe.mpr (List.perm_insertionSort _ _)
  · rw [hd1]
    exact (List.pairwise_reverse).mpr
      (List.Pairwise.imp (fun hab => hab) (List.sorted_insertionSort (· ≤ ·) (traverse s)))
  · show ((sortDescending s).seq.map Prod.snd : Multiset Int) = _
    rw [show (sortDescending s).seq.map Prod.snd = traverse (sortDescending s) from rfl,
        hd1]
    exact Multiset.coe_eq_coe.mpr
      ((List.reverse_perm _).trans (List.perm_insertionSort _ _))

theorem C7_sort_order_preservation_witness :
    (pushBack (pushBack (pushBack emptyDS 3) 1) 2).seq.length ≤
        (pushBack (pushBack (pushBack emptyDS 3) 1) 2).sz ∧
      List.Sorted (· ≤ ·)
        (traverse (sortAscending (pushBack (pushBack (pushBack emptyDS 3) 1) 2))) :=
  ⟨by decide,
    (C7_sort_order_preservation (pushBack (pushBack (pushBack emptyDS 3) 1) 2)
      (by decide)).1⟩

/-!  ## C9: split  -/

/-- C9: `split(k)` leaves this container holding exactly the first
`min(k, n)` slots in their original order and returns the remaining slots
in their original order; `k ≥ n` leaves this container untouched and
returns a default-constructed empty container; `k = 0` moves everything to
the returned container. -/
theorem C9_split_partition (s : DS) (k : Nat) (h : s.sz = s.seq.length) :
    (splitDS s k).1.seq = s.seq.take k ∧
      (splitDS s k).2.seq = s.seq.drop k ∧
      (s.seq.length ≤ k → (splitDS s k).1 = s ∧ (splitDS s k).2 = emptyDS) ∧
      (k = 0 → (splitDS s k).1.seq = [] ∧ (splitDS s k).2.seq = s.seq) := by
  unfold splitDS
  by_cases h1 : s.sz ≤ k
  · rw [if_pos h1]
    have hk : s.seq.length ≤ k := by omega
    refine ⟨(List.take_of_length_le hk).symm, (List.drop_eq_nil_of_le hk).symm,
      fun _ => ⟨rfl, rfl⟩, fun h0 => ?_⟩
    have : s.seq.length = 0 := by omega
    have hnil : s.seq = [] := List.length_eq_zero.mp this
    simp [hnil, emptyDS]
  · rw [if_neg h1]
    by_cases h2 : k = 0
    · rw [if_pos h2]
      have hosz : ¬s.sz = 0 := by omega
      have hseq2 : (mergeDS emptyDS s).1.seq = s.seq := by
        unfold mergeDS
        rw [if_neg hosz]
        simp only [rebalanceMedian_seq, foldl_mergeStep_seq]
        rfl
      have hseq1 : (mergeDS emptyDS s).2.seq = [] := by
        unfold mergeDS
        rw [if_neg hosz]
        rfl
      subst h2
      exact ⟨by simpa using hseq1, by simpa using hseq2,
        fun hle => absurd (by omega : s.sz = 0) hosz,
        fun _ => ⟨hseq1, hseq2⟩⟩
    · rw [if_neg h2]
      refine ⟨by simp, by simp, fun hle => absurd (by omega : s.sz ≤ k) h1,
        fun h0 => absurd h0 h2⟩

theorem C9_split_partition_witness :
    (pushBack (pushBack (pushBack emptyDS 1) 3) 7).sz =
        (pushBack (pushBack (pushBack emptyDS 1) 3) 7).seq.length ∧
      (splitDS (pushBack (pushBack (pushBack emptyDS 1) 3) 7) 2).1.seq =
        (pushBack (pushBack (pushBack emptyDS 1) 3) 7).seq.take 2 :=
  ⟨by decide,
    (C9_split_partition (pushBack (pushBack (pushBack emptyDS 1) 3) 7) 2
      (by decide)).1⟩

/-!  ## C10: rotate  -/

/-- C10: `rotate(k)` right-rotates by `k mod size`: the traversal becomes
the last `k mod size` values followed by the first `size - k mod size`
values, each block in original order; empty containers and multiples of
the size are no-ops; the frequency map, min, max, median, mode and size
are all unchanged. -/
theorem C10_rotate_rotation (s : DS) (k : Nat) (h : s.sz = s.seq.length) :
    traverse (rotate s k) =
        (traverse s).drop (s.seq.length - k % s.seq.length) ++
          (traverse s).take (s.seq.length - k % s.seq.length) ∧
      (s.seq = [] → rotate s k = s) ∧
      (k % s.seq.length = 0 → rotate s k = s) ∧
      (rotate s k).freq = s.freq ∧
      getMin (rotate s k) = getMin s ∧
      getMax (rotate s k) = getMax s ∧
      getMedian (rotate s k) = getMedian s ∧
      getMode (rotate s k) = getMode s ∧
      (rotate s k).sz = s.sz := by
  simp only [rotate]
  by_cases h0 : s.sz = 0
  · rw [if_pos h0]
    have hnil : s.seq = [] := List.length_eq_zero.mp (by omega)
    refine ⟨?_, fun _ => rfl, fun _ => rfl, rfl, rfl, rfl, rfl, rfl, rfl⟩
    simp [hnil, traverse]
  · rw [if_neg h0]
    have hne : s.seq ≠ [] := by
      intro hnil
      rw [hnil] at h
      simp at h
      omega
    by_cases h2 : k % s.sz = 0
    · rw [if_pos h2]
      have h2l : k % s.seq.length = 0 := by rw [← h]; exact h2
      refine ⟨?_, fun _ => rfl, fun _ => rfl, rfl, rfl, rfl, rfl, rfl, rfl⟩
      rw [h2l, Nat.sub_zero]
      have hlm : (List.map Prod.snd s.seq).length = s.seq.length :=
        List.length_map _ _
      simp only [traverse]
      rw [← hlm, List.drop_length, List.take_length, List.nil_append]
    · rw [if_neg h2]
      have h2l : ¬k % s.seq.length = 0 := by rw [← h]; exact h2
      refine ⟨?_, fun hnil => absurd hnil hne, fun hz => absurd hz h2l,
        rfl, rfl, rfl, rfl, rfl, rfl⟩
      rw [← h]
      simp [traverse, List.map_drop, List.map_take]

/-!  ## Frequency-map (association list) lemmas  -/

theorem freqLookup_inc (l : List (Int × Nat)) (x y : Int) :
    freqLookup (freqInc l x) y =
      if y = x then freqLookup l x + 1 else freqLookup l y := by
  induction l with
  | nil =>
      simp only [freqInc, freqLookup]
      by_cases h : y = x
      · subst h
        simp
      · simp [h, Ne.symm h]
  | cons p t ih =>
      obtain ⟨z, c⟩ := p
      simp only [freqInc]
      by_cases hzx : z = x
      · rw [if_pos hzx]
        subst hzx
        by_cases hzy : z = y
        · subst hzy
          simp [freqLookup]
        · simp [freqLookup, hzy, Ne.symm hzy]
      · rw [if_neg hzx]
        simp only [freqLookup]
        rw [if_neg hzx]
        by_cases hzy : z = y
        · subst hzy
          rw [if_pos rfl, if_pos rfl, if_neg hzx]
        · rw [if_neg hzy, if_neg hzy, ih]

theorem freqInc_keys (l : List (Int × Nat)) (x : Int) :
    (freqInc l x).map Prod.fst = l.map Prod.fst ∨
      (freqInc l x).map Prod.fst = l.map Prod.fst ++ [x] := by
  induction l with
  | nil => right; rfl
  | cons p t ih =>
      obtain ⟨z, c⟩ := p
      simp only [freqInc]
      by_cases hzx : z = x
      · subst hzx
        left
        simp
      · rw [if_neg hzx]
        rcases ih with h | h
        · left
          simp [h]
        · right
          simp [h]

theorem freqInc_nodup (l : List (Int × Nat)) (x : Int)
    (h : (l.map Prod.fst).Nodup) (hx : freqLookup l x = 0 → x ∉ l.map Prod.fst) :
    ((freqInc l x).map Prod.fst).Nodup := by
  induction l with
  | nil => simp [freqInc]
  | cons p t ih =>
      obtain ⟨z, c⟩ := p
      simp only [freqInc]
      by_cases hzx : z = x
      · subst hzx
        simpa using h
      · rw [if_neg hzx]
        simp only [List.map_cons, List.nodup_cons] at h ⊢
        refine ⟨?_, ih h.2 ?_⟩
        · intro hz
          rcases freqInc_keys t x with hk | hk
          · rw [hk] at hz
            exact h.1 hz
          · rw [hk] at hz
            rcases List.mem_append.mp hz with hz1 | hz2
            · exact h.1 hz1
            · exact hzx (List.mem_singleton.mp hz2)
        · intro h0
          have : freqLookup ((z, c) :: t) x = 0 := by
            simpa [freqLookup, Ne.symm hzx, hzx] using h0
          intro hxm
          exact hx this (List.mem_cons_of_mem _ hxm)

theorem freqInc_pos (l : List (Int × Nat)) (x : Int)
    (h : ∀ p ∈ l, 0 < p.2) : ∀ p ∈ freqInc l x, 0 < p.2 := by
  induction l with
  | nil =>
      intro p hp
      simp only [freqInc, List.mem_singleton] at hp
      subst hp
      norm_num
  | cons q t ih =>
      obtain ⟨z, c⟩ := q
      intro p hp
      simp only [freqInc] at hp
      by_cases hzx : z = x
      · subst hzx
        rw [if_pos rfl] at hp
        rcases List.mem_cons.mp hp with h1 | h2
        · subst h1
          norm_num
        · exact h p (List.mem_cons_of_mem _ h2)
      · rw [if_neg hzx] at hp
        rcases List.mem_cons.mp hp with h1 | h2
        · subst h1
          exact h _ (List.mem_cons_self _ _)
        · exact ih (fun r hr => h r (List.mem_cons_of_mem _ hr)) p h2

theorem freqLookup_absent (l : List (Int × Nat)) (y : Int)
    (h : y ∉ l.map Prod.fst) : freqLookup l y = 0 := by
  induction l with
  | nil => rfl
  | cons p t ih =>
      obtain ⟨z, c⟩ := p
      simp only [List.map_cons, List.mem_cons] at h
      push_neg at h
      simp only [freqLookup]
      rw [if_neg (fun hh => h.1 hh.symm)]
      exact ih h.2

theorem freqLookup_dec (l : List (Int × Nat)) (x y : Int)
    (h : (l.map Prod.fst).Nodup) :
    freqLookup (freqDec l x) y =
      if y = x then freqLookup l x - 1 else freqLookup l y := by
  induction l with
  | nil =>
      simp only [freqDec, freqLookup]
      split <;> rfl
  | cons p t ih =>
      obtain ⟨z, c⟩ := p
      simp only [List.map_cons, List.nodup_cons] at h
      simp only [freqDec]
      by_cases hzx : z = x
      · subst hzx
        rw [if_pos rfl]
        by_cases hc : c - 1 = 0
        · rw [if_pos hc]
          by_cases hyz : y = z
          · subst hyz
            simp only [freqLookup]
            simp [freqLookup_absent t y h.1, hc]
          · simp only [freqLookup]
            rw [if_neg hyz, if_neg (fun hh => hyz hh.symm)]
        · rw [if_neg hc]
          by_cases hyz : y = z
          · subst hyz
            simp only [freqLookup]
            simp
          · simp only [freqLookup]
            rw [if_neg (fun hh => hyz hh.symm), if_neg hyz,
                if_neg (fun hh => hyz hh.symm)]
      · rw [if_neg hzx]
        simp only [freqLookup]
        rw [if_neg hzx]
        by_cases hzy : z = y
        · subst hzy
          rw [if_pos rfl, if_neg hzx, if_pos rfl]
        · rw [if_neg hzy, if_neg hzy, ih h.2]

theorem freqDec_keys_sublist (l : List (Int × Nat)) (x : Int) :
    ((freqDec l x).map Prod.fst).Sublist (l.map Prod.fst) := by
  induction l with
  | nil => simp [freqDec]
  | cons p t ih =>
      obtain ⟨z, c⟩ := p
      simp only [freqDec]
      by_cases hzx : z = x
      · subst hzx
        rw [if_pos rfl]
        by_cases hc : c - 1 = 0
        · rw [if_pos hc]
          exact List.sublist_cons_self _ _
        · rw [if_neg hc]
          simp
      · rw [if_neg hzx]
        simp only [List.map_cons]
        exact List.Sublist.cons₂ z ih

theorem freqDec_nodup (l : List (Int × Nat)) (x : Int)
    (h : (l.map Prod.fst).Nodup) : ((freqDec l x).map Prod.fst).Nodup :=
  (freqDec_keys_sublist l x).nodup h

theorem freqDec_pos (l : List (Int × Nat)) (x : Int)
    (h : ∀ p ∈ l, 0 < p.2) : ∀ p ∈ freqDec l x, 0 < p.2 := by
  induction l with
  | nil => simp [freqDec]
  | cons q t ih =>
      obtain ⟨z, c⟩ := q
      intro p hp
      simp only [freqDec] at hp
      by_cases hzx : z = x
      · subst hzx
        rw [if_pos rfl] at hp
        by_cases hc : c - 1 = 0
        · rw [if_pos hc] at hp
          exact h p (List.mem_cons_of_mem _ hp)
        · rw [if_neg hc] at hp
          rcases List.mem_cons.mp hp with h1 | h2
          · subst h1
            exact Nat.pos_of_ne_zero hc
          · exact h p (List.mem_cons_of_mem _ h2)
      · rw [if_neg hzx] at hp
        rcases List.mem_cons.mp hp with h1 | h2
        · subst h1
          exact h _ (List.mem_cons_self _ _)
        · exact ih (fun r hr => h r (List.mem_cons_of_mem _ hr)) p h2

/-- In a well-formed frequency map, entries are exactly the positive
lookups. -/
theorem mem_freq_iff (l : List (Int × Nat)) (y : Int) (c : Nat)
    (hnodup : (l.map Prod.fst).Nodup) (hpos : ∀ p ∈ l, 0 < p.2) :
    (y, c) ∈ l ↔ freqLookup l y = c ∧ 0 < c := by
  induction l with
  | nil =>
      simp only [freqLookup, List.not_mem_nil, false_iff, not_and]
      intro h0
      omega
  | cons p t ih =>
      obtain ⟨z, d⟩ := p
      simp only [List.map_cons, List.nodup_cons] at hnodup
      constructor
      · intro hm
        rcases List.mem_cons.mp hm with h1 | h2
        · rw [Prod.mk.injEq] at h1
          obtain ⟨hzy, hdc⟩ := h1
          subst hzy
          subst hdc
          exact ⟨by simp [freqLookup], hpos _ (List.mem_cons_self _ _)⟩
        · have hzy : ¬z = y := by
            intro hzy
            subst hzy
            exact hnodup.1 (List.mem_map.mpr ⟨(z, c), h2, rfl⟩)
          have := (ih hnodup.2 (fun r hr => hpos r (List.mem_cons_of_mem _ hr))).mp h2
          exact ⟨by simpa [freqLookup, hzy] using this.1, this.2⟩
      · rintro ⟨hlk, hc⟩
        simp only [freqLookup] at hlk
        by_cases hzy : z = y
        · subst hzy
          rw [if_pos rfl] at hlk
          subst hlk
          exact List.mem_cons_self _ _
        · rw [if_neg hzy] at hlk
          exact List.mem_cons_of_mem _
            ((ih hnodup.2 (fun r hr => hpos r (List.mem_cons_of_mem _ hr))).mpr
              ⟨hlk, hc⟩)

/-- A well-formed frequency map with all lookups zero is empty. -/
theorem freq_eq_nil_of_lookup_zero (l : List (Int × Nat))
    (hnodup : (l.map Prod.fst).Nodup) (hpos : ∀ p ∈ l, 0 < p.2)
    (h : ∀ y, freqLookup l y = 0) : l = [] := by
  match l with
  | [] => rfl
  | (z, c) :: t =>
      exfalso
      have : (z, c) ∈ (z, c) :: t := List.mem_cons_self _ _
      have hc := (mem_freq_iff _ z c hnodup hpos).mp this
      rw [h z] at hc
      exact absurd hc.1.symm (Nat.pos_iff_ne_zero.mp hc.2)

/-!  ## Mode rescan fold lemmas  -/

theorem domBy_refl (r : Int × Nat) : domBy r r := Or.inr ⟨rfl, le_refl _⟩

theorem domBy_trans {a b c : Int × Nat} (h1 : domBy a b) (h2 : domBy b c) :
    domBy a c := by
  rcases h1 with h1 | ⟨h1e, h1l⟩ <;> rcases h2 with h2 | ⟨h2e, h2l⟩
  · exact Or.inl (lt_trans h2 h1)
  · exact Or.inl (h2e ▸ h1)
  · exact Or.inl (h1e ▸ h2)
  · exact Or.inr ⟨h2e.trans h1e, le_trans h1l h2l⟩

theorem rescanStep_cases (b p : Int × Nat) :
    (rescanStep b p = p ∨ rescanStep b p = b) ∧
      domBy (rescanStep b p) b ∧ domBy (rescanStep b p) p := by
  unfold rescanStep
  split
  · rename_i hcond
    rcases hcond with hlt | ⟨heq, hval⟩
    · exact ⟨Or.inl rfl, Or.inl hlt, domBy_refl p⟩
    · exact ⟨Or.inl rfl, Or.inr ⟨heq.symm, le_of_lt hval⟩, domBy_refl p⟩
  · rename_i hcond
    push_neg at hcond
    obtain ⟨h1, h2⟩ := hcond
    refine ⟨Or.inr rfl, domBy_refl b, ?_⟩
    rcases lt_or_eq_of_le h1 with hlt | heq
    · exact Or.inl hlt
    · exact Or.inr ⟨heq, h2 heq⟩

theorem foldl_rescan_spec (l : List (Int × Nat)) (b : Int × Nat) :
    (l.foldl rescanStep b = b ∨ l.foldl rescanStep b ∈ l) ∧
      domBy (l.foldl rescanStep b) b ∧
      ∀ p ∈ l, domBy (l.foldl rescanStep b) p := by
  induction l generalizing b with
  | nil => exact ⟨Or.inl rfl, domBy_refl b, by simp⟩
  | cons q t ih =>
      obtain ⟨hmem, hdom, hall⟩ := ih (rescanStep b q)
      obtain ⟨hcase, hdb, hdq⟩ := rescanStep_cases b q
      simp only [List.foldl_cons]
      refine ⟨?_, domBy_trans hdom hdb, ?_⟩
      · rcases hmem with h | h
        · rcases hcase with hc | hc
          · rw [h, hc]
            exact Or.inr (List.mem_cons_self _ _)
          · rw [h, hc]
            exact Or.inl rfl
        · exact Or.inr (List.mem_cons_of_mem _ h)
      · intro p hp
        rcases List.mem_cons.mp hp with h | h
        · subst h
          exact domBy_trans hdom hdq
        · exact hall p h

/-!  ## Mode-cursor preservation  -/

theorem modeInc_modeOk (s : DS) (x : Int) (m : Multiset Int)
    (hok : ∀ y, freqLookup s.freq y = m.count y)
    (hmode : ModeOk m s.modeVal s.modeCnt) :
    ModeOk (x ::ₘ m) (modeIncDS s x).modeVal (modeIncDS s x).modeCnt := by
  have hf : freqLookup (freqInc s.freq x) x = m.count x + 1 := by
    rw [freqLookup_inc, if_pos rfl, hok]
  have hcount : ∀ y, (x ::ₘ m).count y = m.count y + if y = x then 1 else 0 :=
    fun y => Multiset.count_cons y x m
  have hne : x ::ₘ m ≠ 0 := by
    intro hz
    exact absurd (congrArg Multiset.card hz) (by simp)
  by_cases hcond : freqLookup (freqInc s.freq x) x > s.modeCnt ∨
      (freqLookup (freqInc s.freq x) x = s.modeCnt ∧ x < s.modeVal)
  · have hval : (modeIncDS s x).modeVal = x := by
      simp only [modeIncDS]
      rw [if_pos hcond]
    have hcnt2 : (modeIncDS s x).modeCnt = m.count x + 1 := by
      simp only [modeIncDS]
      rw [if_pos hcond, hf]
    rw [hval, hcnt2]
    rw [hf] at hcond
    refine ⟨fun hz => absurd hz hne, fun _ => ⟨by rw [hcount x, if_pos rfl], ?_⟩⟩
    intro y hy
    by_cases hyx : y = x
    · subst hyx
      rw [hcount y, if_pos rfl]
      exact ⟨le_refl _, fun _ => le_refl _⟩
    · rw [hcount y, if_neg hyx, Nat.add_zero]
      have hym : y ∈ m := by
        rcases Multiset.mem_cons.mp hy with h | h
        · exact absurd h hyx
        · exact h
      have hm0 : m ≠ 0 := by
        intro hz
        rw [hz] at hym
        simp at hym
      obtain ⟨hcnt, hmax⟩ := hmode.2 hm0
      have hle : m.count y ≤ s.modeCnt := (hmax y hym).1
      rcases hcond with hlt | ⟨heq, hvx⟩
      · exact ⟨by omega, fun hEq => by omega⟩
      · refine ⟨by omega, fun hEq => ?_⟩
        have hyc : m.count y = s.modeCnt := by omega
        exact le_trans (le_of_lt hvx) ((hmax y hym).2 hyc)
  · have hval : (modeIncDS s x).modeVal = s.modeVal := by
      simp only [modeIncDS]
      rw [if_neg hcond]
    have hcnt2 : (modeIncDS s x).modeCnt = s.modeCnt := by
      simp only [modeIncDS]
      rw [if_neg hcond]
    rw [hval, hcnt2]
    rw [hf] at hcond
    push_neg at hcond
    obtain ⟨hle, htie⟩ := hcond
    have hm0 : m ≠ 0 := by
      intro hz
      subst hz
      rw [hmode.1 rfl] at hle
      simp at hle
    obtain ⟨hcnt, hmax⟩ := hmode.2 hm0
    have hmvx : ¬s.modeVal = x := by
      intro he
      rw [he] at hcnt
      omega
    refine ⟨fun hz => absurd hz hne,
      fun _ => ⟨by rw [hcount, if_neg hmvx, Nat.add_zero, hcnt], ?_⟩⟩
    intro y hy
    by_cases hyx : y = x
    · subst hyx
      rw [hcount y, if_pos rfl]
      exact ⟨by omega, fun hEq => htie (by omega)⟩
    · rw [hcount y, if_neg hyx, Nat.add_zero]
      have hym : y ∈ m := by
        rcases Multiset.mem_cons.mp hy with h | h
        · exact absurd h hyx
        · exact h
      exact hmax y hym

theorem modeDec_modeOk (s : DS) (x : Int) (m : Multiset Int)
    (hnodup : (s.freq.map Prod.fst).Nodup) (hpos : ∀ p ∈ s.freq, 0 < p.2)
    (hok : ∀ y, freqLookup s.freq y = m.count y)
    (hmode : ModeOk m s.modeVal s.modeCnt) (hx : x ∈ m) :
    ModeOk (m.erase x) (modeDecDS s x).modeVal (modeDecDS s x).modeCnt ∧
      (modeDecDS s x).freq = freqDec s.freq x := by
  have hcx : 0 < m.count x := Multiset.count_pos.mpr hx
  have hm0 : m ≠ 0 := by
    intro hz
    rw [hz] at hx
    simp at hx
  obtain ⟨hcnt, hmax⟩ := hmode.2 hm0
  have hguard : ¬freqLookup s.freq x = 0 := by
    rw [hok]
    omega
  have hdeclk : ∀ y, freqLookup (freqDec s.freq x) y = (m.erase x).count y := by
    intro y
    rw [freqLookup_dec _ _ _ hnodup]
    by_cases hyx : y = x
    · subst hyx
      rw [if_pos rfl, hok, Multiset.count_erase_self]
    · rw [if_neg hyx, hok, Multiset.count_erase_of_ne hyx]
  have hdecnodup := freqDec_nodup s.freq x hnodup
  have hdecpos := freqDec_pos s.freq x hpos
  by_cases hcond : x = s.modeVal ∧
      (freqLookup (freqDec s.freq x) x = 0 ∨
        freqLookup (freqDec s.freq x) x < s.modeCnt)
  · have hvr : (modeDecDS s x).modeVal =
        ((freqDec s.freq x).foldl rescanStep (s.modeVal, 0)).1 := by
      simp only [modeDecDS]
      rw [if_neg hguard, if_pos hcond]
    have hcr : (modeDecDS s x).modeCnt =
        ((freqDec s.freq x).foldl rescanStep (s.modeVal, 0)).2 := by
      simp only [modeDecDS]
      rw [if_neg hguard, if_pos hcond]
    have hfq : (modeDecDS s x).freq = freqDec s.freq x := by
      simp only [modeDecDS]
      rw [if_neg hguard, if_pos hcond]
    refine ⟨?_, hfq⟩
    rw [hvr, hcr]
    by_cases hz : m.erase x = 0
    · have hfrn : freqDec s.freq x = [] := by
        apply freq_eq_nil_of_lookup_zero _ hdecnodup hdecpos
        intro y
        rw [hdeclk y, hz]
        simp
      rw [hfrn]
      exact ⟨fun _ => rfl, fun hne => absurd hz hne⟩
    · obtain ⟨hmem, _, hall⟩ := foldl_rescan_spec (freqDec s.freq x) (s.modeVal, 0)
      have hrmem : (freqDec s.freq x).foldl rescanStep (s.modeVal, 0) ∈
          freqDec s.freq x := by
        rcases hmem with h | h
        · exfalso
          obtain ⟨w, hw⟩ := Multiset.exists_mem_of_ne_zero hz
          have hwc : 0 < (m.erase x).count w := Multiset.count_pos.mpr hw
          have hwl : (w, (m.erase x).count w) ∈ freqDec s.freq x :=
            (mem_freq_iff _ _ _ hdecnodup hdecpos).mpr ⟨hdeclk w, hwc⟩
          have hd := hall _ hwl
          rw [h] at hd
          rcases hd with hlt | ⟨heq, _⟩
          · exact absurd hlt (by omega)
          · omega
        · exact h
      have hrl := (mem_freq_iff _ _ _ hdecnodup hdecpos).mp hrmem
      constructor
      · intro hzz
        exact absurd hzz hz
      · intro _
        refine ⟨by rw [← hdeclk, hrl.1], ?_⟩
        intro y hy
        have hyc : 0 < (m.erase x).count y := Multiset.count_pos.mpr hy
        have hyl : (y, (m.erase x).count y) ∈ freqDec s.freq x :=
          (mem_freq_iff _ _ _ hdecnodup hdecpos).mpr ⟨hdeclk y, hyc⟩
        have hdy := hall _ hyl
        rcases hdy with hlt | ⟨heq, hle⟩
        · exact ⟨le_of_lt hlt, fun hEq => by omega⟩
        · exact ⟨le_of_eq heq, fun _ => hle⟩
  · have hvr : (modeDecDS s x).modeVal = s.modeVal := by
      simp only [modeDecDS]
      rw [if_neg hguard, if_neg hcond]
    have hcr : (modeDecDS s x).modeCnt = s.modeCnt := by
      simp only [modeDecDS]
      rw [if_neg hguard, if_neg hcond]
    have hfq : (modeDecDS s x).freq = freqDec s.freq x := by
      simp only [modeDecDS]
      rw [if_neg hguard, if_neg hcond]
    refine ⟨?_, hfq⟩
    rw [hvr, hcr]
    push_neg at hcond
    have hxv : ¬x = s.modeVal := by
      intro he
      obtain ⟨hnz, hnlt⟩ := hcond he
      rw [hdeclk x, Multiset.count_erase_self] at hnlt
      rw [← he] at hcnt
      omega
    have hmcpos : 0 < s.modeCnt := lt_of_lt_of_le hcx (hmax x hx).1
    have hz : m.erase x ≠ 0 := by
      intro hz
      have hmem : s.modeVal ∈ m.erase x := by
        rw [Multiset.mem_erase_of_ne (fun he => hxv he.symm)]
        exact Multiset.count_pos.mp (by rw [hcnt]; exact hmcpos)
      rw [hz] at hmem
      simp at hmem
    constructor
    · intro hzz
      exact absurd hzz hz
    · intro _
      refine ⟨?_, ?_⟩
      · rw [Multiset.count_erase_of_ne (fun he => hxv he.symm), hcnt]
      · intro y hy
        have hym : y ∈ m := Multiset.mem_of_mem_erase hy
        by_cases hyx : y = x
        · subst hyx
          rw [Multiset.count_erase_self]
          have hycnt := (hmax y hym).1
          constructor
          · omega
          · intro hEq
            have hc : m.count y = s.modeCnt := by omega
            exact (hmax y hym).2 hc
        · rw [Multiset.count_erase_of_ne hyx]
          exact hmax y hym

/-!  ## Sorted-multiset helpers (multiset begin/rbegin)  -/

theorem msort_sorted (m : Multiset Int) : List.Sorted (· ≤ ·) (msort m) := by
  induction m using Quotient.inductionOn with
  | h l => exact List.sorted_insertionSort _ l

theorem msort_coe (m : Multiset Int) : ((msort m : List Int) : Multiset Int) = m := by
  induction m using Quotient.inductionOn with
  | h l => exact Multiset.coe_eq_coe.mpr (List.perm_insertionSort _ l)

theorem mem_msort (m : Multiset Int) (a : Int) : a ∈ msort m ↔ a ∈ m := by
  rw [← Multiset.mem_coe, msort_coe]

theorem msort_length (m : Multiset Int) : (msort m).length = Multiset.card m := by
  rw [← Multiset.coe_card, msort_coe]

theorem msort_ne_nil (m : Multiset Int) (h : m ≠ 0) : msort m ≠ [] := by
  intro h0
  apply h
  rw [← Multiset.card_eq_zero, ← msort_length, h0]
  rfl

theorem getLastD_mem (l : List Int) : ∀ d : Int, l ≠ [] → l.getLastD d ∈ l := by
  induction l with
  | nil => intro d h; exact absurd rfl h
  | cons b t ih =>
      intro d _
      rw [List.getLastD_cons]
      cases ht : t with
      | nil => simp
      | cons c t2 =>
          rw [← ht]
          have := ih b (by rw [ht]; simp)
          exact List.mem_cons_of_mem _ this

theorem sorted_le_getLastD (l : List Int) :
    ∀ d : Int, List.Sorted (· ≤ ·) l → ∀ a ∈ l, a ≤ l.getLastD d := by
  induction l with
  | nil => intro d _ a ha; simp at ha
  | cons b t ih =>
      intro d hs a ha
      rw [List.sorted_cons] at hs
      rw [List.getLastD_cons]
      rcases List.mem_cons.mp ha with h | h
      · subst h
        cases ht : t with
        | nil => simp
        | cons c t2 =>
            rw [← ht]
            exact hs.1 _ (getLastD_mem t a (by rw [ht]; simp))
      · exact ih b hs.2 a h

theorem sorted_headD_le (l : List Int) (d : Int) (hs : List.Sorted (· ≤ ·) l) :
    ∀ a ∈ l, l.headD d ≤ a := by
  cases l with
  | nil => intro a ha; simp at ha
  | cons b t =>
      intro a ha
      rw [List.sorted_cons] at hs
      rw [List.headD_cons]
      rcases List.mem_cons.mp ha with h | h
      · exact le_of_eq h.symm
      · exact hs.1 a h

theorem le_maxOfM (m : Multiset Int) (a : Int) (ha : a ∈ m) : a ≤ maxOfM m :=
  sorted_le_getLastD (msort m) 0 (msort_sorted m) a ((mem_msort m a).mpr ha)

theorem maxOfM_mem (m : Multiset Int) (h : m ≠ 0) : maxOfM m ∈ m :=
  (mem_msort m _).mp (getLastD_mem (msort m) 0 (msort_ne_nil m h))

theorem minOfM_le (m : Multiset Int) (a : Int) (ha : a ∈ m) : minOfM m ≤ a :=
  sorted_headD_le (msort m) 0 (msort_sorted m) a ((mem_msort m a).mpr ha)

theorem minOfM_mem (m : Multiset Int) (h : m ≠ 0) : minOfM m ∈ m := by
  have hne := msort_ne_nil m h
  cases hl : msort m with
  | nil => exact absurd hl hne
  | cons b t =>
      have : (msort m).headD 0 ∈ msort m := by
        rw [hl]
        simp
      exact (mem_msort m _).mp this

/-!  ## Median-half preservation  -/

theorem rebalance_spec (s : DS)
    (hcross : ∀ a ∈ s.lower, ∀ b ∈ s.upper, a ≤ b)
    (hle2 : Multiset.card s.lower ≤ Multiset.card s.upper + 2)
    (hge1 : Multiset.card s.upper ≤ Multiset.card s.lower + 1) :
    (rebalanceMedian s).lower + (rebalanceMedian s).upper = s.lower + s.upper ∧
      (∀ a ∈ (rebalanceMedian s).lower, ∀ b ∈ (rebalanceMedian s).upper, a ≤ b) ∧
      Multiset.card (rebalanceMedian s).upper ≤
        Multiset.card (rebalanceMedian s).lower ∧
      Multiset.card (rebalanceMedian s).lower ≤
        Multiset.card (rebalanceMedian s).upper + 1 := by
  simp only [rebalanceMedian]
  split
  · rename_i h1
    have hlo : s.lower ≠ 0 := by
      intro h0
      rw [h0] at h1
      simp at h1
    have hmx : maxOfM s.lower ∈ s.lower := maxOfM_mem _ hlo
    have hclo : 0 < Multiset.card s.lower := by
      rw [Multiset.card_pos]
      exact hlo
    refine ⟨?_, ?_, ?_, ?_⟩
    · show s.lower.erase (maxOfM s.lower) + (maxOfM s.lower ::ₘ s.upper) = _
      rw [Multiset.add_cons, ← Multiset.cons_add, Multiset.cons_erase hmx]
    · intro a ha b hb
      have ham : a ∈ s.lower := Multiset.mem_of_mem_erase ha
      rcases Multiset.mem_cons.mp hb with h | h
      · rw [h]
        exact le_maxOfM _ _ ham
      · exact hcross a ham b h
    · show Multiset.card (maxOfM s.lower ::ₘ s.upper) ≤
        Multiset.card (s.lower.erase (maxOfM s.lower))
      rw [Multiset.card_cons, Multiset.card_erase_of_mem hmx]
      simp only [Nat.pred_eq_sub_one]
      omega
    · show Multiset.card (s.lower.erase (maxOfM s.lower)) ≤
        Multiset.card (maxOfM s.lower ::ₘ s.upper) + 1
      rw [Multiset.card_cons, Multiset.card_erase_of_mem hmx]
      simp only [Nat.pred_eq_sub_one]
      omega
  · split
    · rename_i h1 h2
      have hup : s.upper ≠ 0 := by
        intro h0
        rw [h0] at h2
        simp at h2
      have hmn : minOfM s.upper ∈ s.upper := minOfM_mem _ hup
      have hcup : 0 < Multiset.card s.upper := by
        rw [Multiset.card_pos]
        exact hup
      refine ⟨?_, ?_, ?_, ?_⟩
      · show (minOfM s.upper ::ₘ s.lower) + s.upper.erase (minOfM s.upper) = _
        have hrw : s.lower + s.upper =
            s.lower + (minOfM s.upper ::ₘ s.upper.erase (minOfM s.upper)) := by
          rw [Multiset.cons_erase hmn]
        rw [hrw, Multiset.add_cons, Multiset.cons_add]
      · intro a ha b hb
        have hbm : b ∈ s.upper := Multiset.mem_of_mem_erase hb
        rcases Multiset.mem_cons.mp ha with h | h
        · rw [h]
          exact minOfM_le _ _ hbm
        · exact hcross a h b hbm
      · show Multiset.card (s.upper.erase (minOfM s.upper)) ≤
          Multiset.card (minOfM s.upper ::ₘ s.lower)
        rw [Multiset.card_cons, Multiset.card_erase_of_mem hmn]
        simp only [Nat.pred_eq_sub_one]
        omega
      · show Multiset.card (minOfM s.upper ::ₘ s.lower) ≤
          Multiset.card (s.upper.erase (minOfM s.upper)) + 1
        rw [Multiset.card_cons, Multiset.card_erase_of_mem hmn]
        simp only [Nat.pred_eq_sub_one]
        omega
    · rename_i h1 h2
      exact ⟨rfl, hcross, by omega, by omega⟩

theorem medianAdd_spec (s : DS) (x : Int)
    (hcross : ∀ a ∈ s.lower, ∀ b ∈ s.upper, a ≤ b)
    (hle : Multiset.card s.upper ≤ Multiset.card s.lower)
    (hge : Multiset.card s.lower ≤ Multiset.card s.upper + 1) :
    (medianAdd s x).lower + (medianAdd s x).upper = x ::ₘ (s.lower + s.upper) ∧
      (∀ a ∈ (medianAdd s x).lower, ∀ b ∈ (medianAdd s x).upper, a ≤ b) ∧
      Multiset.card (medianAdd s x).upper ≤ Multiset.card (medianAdd s x).lower ∧
      Multiset.card (medianAdd s x).lower ≤
        Multiset.card (medianAdd s x).upper + 1 := by
  unfold medianAdd
  split
  · rename_i hcond
    have hcross2 : ∀ a ∈ (x ::ₘ s.lower), ∀ b ∈ s.upper, a ≤ b := by
      intro a ha b hb
      rcases Multiset.mem_cons.mp ha with h | h
      · subst h
        have hup : s.upper ≠ 0 := by
          intro h0
          rw [h0] at hb
          simp at hb
        have hlo : s.lower ≠ 0 := by
          intro h0
          have hcu : 0 < Multiset.card s.upper := Multiset.card_pos.mpr hup
          rw [h0] at hle
          simp only [Multiset.card_zero] at hle
          omega
        rcases hcond with h0 | hxle
        · exact absurd h0 hlo
        · exact le_trans hxle (hcross _ (maxOfM_mem _ hlo) b hb)
      · exact hcross a h b hb
    obtain ⟨h1, h2, h3, h4⟩ :=
      rebalance_spec { s with lower := x ::ₘ s.lower } hcross2
        (by
          show Multiset.card (x ::ₘ s.lower) ≤ Multiset.card s.upper + 2
          rw [Multiset.card_cons]
          omega)
        (by
          show Multiset.card s.upper ≤ Multiset.card (x ::ₘ s.lower) + 1
          rw [Multiset.card_cons]
          omega)
    refine ⟨?_, h2, h3, h4⟩
    rw [h1]
    show (x ::ₘ s.lower) + s.upper = _
    rw [Multiset.cons_add]
  · rename_i hcond
    push_neg at hcond
    obtain ⟨hlo, hmax⟩ := hcond
    have hcross2 : ∀ a ∈ s.lower, ∀ b ∈ (x ::ₘ s.upper), a ≤ b := by
      intro a ha b hb
      rcases Multiset.mem_cons.mp hb with h | h
      · subst h
        exact le_of_lt (lt_of_le_of_lt (le_maxOfM _ _ ha) hmax)
      · exact hcross a ha b h
    obtain ⟨h1, h2, h3, h4⟩ :=
      rebalance_spec { s with upper := x ::ₘ s.upper } hcross2
        (by
          show Multiset.card s.lower ≤ Multiset.card (x ::ₘ s.upper) + 2
          rw [Multiset.card_cons]
          omega)
        (by
          show Multiset.card (x ::ₘ s.upper) ≤ Multiset.card s.lower + 1
          rw [Multiset.card_cons]
          omega)
    refine ⟨?_, h2, h3, h4⟩
    rw [h1]
    show s.lower + (x ::ₘ s.upper) = _
    rw [Multiset.add_cons]

theorem medianRemove_spec (s : DS) (x : Int)
    (hcross : ∀ a ∈ s.lower, ∀ b ∈ s.upper, a ≤ b)
    (hle : Multiset.card s.upper ≤ Multiset.card s.lower)
    (hge : Multiset.card s.lower ≤ Multiset.card s.upper + 1)
    (hx : x ∈ s.lower + s.upper) :
    (medianRemove s x).lower + (medianRemove s x).upper =
        (s.lower + s.upper).erase x ∧
      (∀ a ∈ (medianRemove s x).lower, ∀ b ∈ (medianRemove s x).upper, a ≤ b) ∧
      Multiset.card (medianRemove s x).upper ≤
        Multiset.card (medianRemove s x).lower ∧
      Multiset.card (medianRemove s x).lower ≤
        Multiset.card (medianRemove s x).upper + 1 := by
  have caseL : x ∈ s.lower →
      (rebalanceMedian { s with lower := s.lower.erase x }).lower +
          (rebalanceMedian { s with lower := s.lower.erase x }).upper =
        (s.lower + s.upper).erase x ∧
      (∀ a ∈ (rebalanceMedian { s with lower := s.lower.erase x }).lower,
        ∀ b ∈ (rebalanceMedian { s with lower := s.lower.erase x }).upper, a ≤ b) ∧
      Multiset.card (rebalanceMedian { s with lower := s.lower.erase x }).upper ≤
        Multiset.card (rebalanceMedian { s with lower := s.lower.erase x }).lower ∧
      Multiset.card (rebalanceMedian { s with lower := s.lower.erase x }).lower ≤
        Multiset.card (rebalanceMedian { s with lower := s.lower.erase x }).upper
          + 1 := by
    intro hxl
    have hc1 : 0 < Multiset.card s.lower := by
      rw [Multiset.card_pos]
      intro h0
      rw [h0] at hxl
      simp at hxl
    obtain ⟨h1, h2, h3, h4⟩ :=
      rebalance_spec { s with lower := s.lower.erase x }
        (fun a ha b hb => hcross a (Multiset.mem_of_mem_erase ha) b hb)
        (by
          show Multiset.card (s.lower.erase x) ≤ _
          rw [Multiset.card_erase_of_mem hxl]
          simp only [Nat.pred_eq_sub_one]
          omega)
        (by
          show Multiset.card s.upper ≤ Multiset.card (s.lower.erase x) + 1
          rw [Multiset.card_erase_of_mem hxl]
          simp only [Nat.pred_eq_sub_one]
          omega)
    refine ⟨?_, h2, h3, h4⟩
    rw [h1]
    show s.lower.erase x + s.upper = _
    rw [Multiset.erase_add_left_pos _ hxl]
  have caseU : x ∈ s.upper →
      (rebalanceMedian { s with upper := s.upper.erase x }).lower +
          (rebalanceMedian { s with upper := s.upper.erase x }).upper =
        (s.lower + s.upper).erase x ∧
      (∀ a ∈ (rebalanceMedian { s with upper := s.upper.erase x }).lower,
        ∀ b ∈ (rebalanceMedian { s with upper := s.upper.erase x }).upper, a ≤ b) ∧
      Multiset.card (rebalanceMedian { s with upper := s.upper.erase x }).upper ≤
        Multiset.card (rebalanceMedian { s with upper := s.upper.erase x }).lower ∧
      Multiset.card (rebalanceMedian { s with upper := s.upper.erase x }).lower ≤
        Multiset.card (rebalanceMedian { s with upper := s.upper.erase x }).upper
          + 1 := by
    intro hxu
    have hc1 : 0 < Multiset.card s.upper := by
      rw [Multiset.card_pos]
      intro h0
      rw [h0] at hxu
      simp at hxu
    obtain ⟨h1, h2, h3, h4⟩ :=
      rebalance_spec { s with upper := s.upper.erase x }
        (fun a ha b hb => hcross a ha b (Multiset.mem_of_mem_erase hb))
        (by
          show Multiset.card s.lower ≤ Multiset.card (s.upper.erase x) + 2
          rw [Multiset.card_erase_of_mem hxu]
          simp only [Nat.pred_eq_sub_one]
          omega)
        (by
          show Multiset.card (s.upper.erase x) ≤ _
          rw [Multiset.card_erase_of_mem hxu]
          simp only [Nat.pred_eq_sub_one]
          omega)
    refine ⟨?_, h2, h3, h4⟩
    rw [h1]
    show s.lower + s.upper.erase x = _
    rw [Multiset.erase_add_right_pos _ hxu]
  unfold medianRemove
  split
  · rename_i hc1
    split
    · rename_i hxl
      exact caseL hxl
    · split
      · rename_i hnl hxu
        exact caseU hxu
      · rename_i hnl hnu
        exfalso
        rcases Multiset.mem_add.mp hx with h | h
        · exact hnl h
        · exact hnu h
  · split
    · rename_i hc1 hxu
      exact caseU hxu
    · split
      · rename_i hxl
        exact caseL hxl
      · rename_i hc1 hnu hnl
        exfalso
        rcases Multiset.mem_add.mp hx with h | h
        · exact hnl h
        · exact hnu h

/-!  ## Consistency of the auxiliary indices  -/

theorem consistent_congr (q : List Slot) (s t : DS)
    (hlocs : t.locs = s.locs) (hfreq : t.freq = s.freq)
    (hmv : t.modeVal = s.modeVal) (hmc : t.modeCnt = s.modeCnt)
    (hav : t.allVals = s.allVals) (hlo : t.lower = s.lower)
    (hup : t.upper = s.upper) (hc : Consistent q s) : Consistent q t := by
  refine ⟨?_, ?_, ?_, ?_, ?_, ?_, ?_, ?_, ?_, ?_⟩
  · rw [hlocs]
    exact hc.locs_ok
  · rw [hfreq]
    exact hc.freq_nodup
  · rw [hfreq]
    exact hc.freq_pos
  · rw [hfreq]
    exact hc.freq_ok
  · rw [hav]
    exact hc.vals_ok
  · rw [hlo, hup]
    exact hc.med_sum
  · rw [hlo, hup]
    exact hc.med_le
  · rw [hlo, hup]
    exact hc.med_ge
  · rw [hlo, hup]
    exact hc.med_cross
  · rw [hmv, hmc]
    exact hc.mode_ok

theorem valsM_perm (q q2 : List Slot) (h : q.Perm q2) : valsM q = valsM q2 :=
  Multiset.coe_eq_coe.mpr (h.map Prod.snd)

theorem consistent_perm (q q2 : List Slot) (s : DS) (hperm : q.Perm q2)
    (hc : Consistent q s) : Consistent q2 s := by
  have hvals : valsM q2 = valsM q := (valsM_perm q q2 hperm).symm
  refine ⟨?_, hc.freq_nodup, hc.freq_pos, ?_, ?_, ?_, hc.med_le, hc.med_ge,
    hc.med_cross, ?_⟩
  · intro x i
    exact (hc.locs_ok x i).trans hperm.mem_iff
  · intro x
    rw [hvals]
    exact hc.freq_ok x
  · rw [hvals]
    exact hc.vals_ok
  · rw [hvals]
    exact hc.med_sum
  · rw [hvals]
    exact hc.mode_ok

theorem valsM_cons (i : Nat) (x : Int) (q : List Slot) :
    valsM ((i, x) :: q) = x ::ₘ valsM q := rfl

theorem consistent_addTracking (q : List Slot) (s : DS) (x : Int) (i : Nat)
    (hc : Consistent q s) : Consistent ((i, x) :: q) (addTracking s x i) := by
  simp only [addTracking]
  have hmode2 : ModeOk (x ::ₘ valsM q)
      (modeIncDS { s with locs := locsInsert s.locs x i } x).modeVal
      (modeIncDS { s with locs := locsInsert s.locs x i } x).modeCnt :=
    modeInc_modeOk { s with locs := locsInsert s.locs x i } x (valsM q)
      (fun y => hc.freq_ok y) hc.mode_ok
  obtain ⟨hm1, hm2, hm3, hm4⟩ := medianAdd_spec
      { modeIncDS { s with locs := locsInsert s.locs x i } x with
          allVals :=
            x ::ₘ (modeIncDS { s with locs := locsInsert s.locs x i } x).allVals }
      x
      (by
        simp only [modeIncDS_lower, modeIncDS_upper]
        exact hc.med_cross)
      (by
        simp only [modeIncDS_lower, modeIncDS_upper]
        exact hc.med_le)
      (by
        simp only [modeIncDS_lower, modeIncDS_upper]
        exact hc.med_ge)
  refine ⟨?_, ?_, ?_, ?_, ?_, ?_, ?_, ?_, ?_, ?_⟩
  · intro y j
    simp only [medianAdd_locs, modeIncDS_locs]
    show j ∈ locsInsert s.locs x i y ↔ _
    unfold locsInsert
    by_cases hyx : y = x
    · subst hyx
      rw [if_pos rfl, Finset.mem_insert]
      constructor
      · intro h
        rcases h with h | h
        · subst h
          exact List.mem_cons_self _ _
        · exact List.mem_cons_of_mem _ ((hc.locs_ok y j).mp h)
      · intro h
        rcases List.mem_cons.mp h with h | h
        · rw [Prod.mk.injEq] at h
          exact Or.inl h.1
        · exact Or.inr ((hc.locs_ok y j).mpr h)
    · rw [if_neg hyx]
      rw [hc.locs_ok y j]
      constructor
      · intro h
        exact List.mem_cons_of_mem _ h
      · intro h
        rcases List.mem_cons.mp h with h | h
        · rw [Prod.mk.injEq] at h
          exact absurd h.2 hyx
        · exact h
  · simp only [medianAdd_freq, modeIncDS_freq]
    apply freqInc_nodup _ _ hc.freq_nodup
    intro h0 hmem
    obtain ⟨p, hp, hpx⟩ := List.mem_map.mp hmem
    obtain ⟨pa, pb⟩ := p
    simp only at hpx
    subst hpx
    have hh := (mem_freq_iff s.freq pa pb hc.freq_nodup hc.freq_pos).mp hp
    rw [hh.1] at h0
    omega
  · simp only [medianAdd_freq, modeIncDS_freq]
    exact freqInc_pos _ _ hc.freq_pos
  · intro y
    simp only [medianAdd_freq, modeIncDS_freq]
    rw [valsM_cons, freqLookup_inc]
    show _ = Multiset.count y (x ::ₘ valsM q)
    rw [Multiset.count_cons]
    by_cases hyx : y = x
    · subst hyx
      rw [if_pos rfl, if_pos rfl, hc.freq_ok]
    · rw [if_neg hyx, if_neg hyx, hc.freq_ok]
      omega
  · simp only [medianAdd_allVals, modeIncDS_allVals]
    rw [valsM_cons, hc.vals_ok]
  · rw [hm1, valsM_cons]
    simp only [modeIncDS_lower, modeIncDS_upper]
    rw [hc.med_sum]
  · exact hm3
  · exact hm4
  · exact hm2
  · rw [valsM_cons]
    simp only [medianAdd_modeVal, medianAdd_modeCnt]
    exact hmode2

theorem valsM_append (q1 q2 : List Slot) : valsM (q1 ++ q2) = valsM q1 + valsM q2 := by
  show ((List.map Prod.snd (q1 ++ q2) : List Int) : Multiset Int) = _
  rw [List.map_append]
  rfl

theorem consistent_removeTracking (q1 q2 : List Slot) (s : DS) (x : Int) (i : Nat)
    (hc : Consistent (q1 ++ (i, x) :: q2) s)
    (hnodup : ((q1 ++ (i, x) :: q2).map Prod.fst).Nodup) :
    Consistent (q1 ++ q2) (removeTracking s x i) := by
  have hq : (i, x) ∈ q1 ++ (i, x) :: q2 := by simp
  have hxv : x ∈ valsM (q1 ++ (i, x) :: q2) := by
    show x ∈ ((List.map Prod.snd (q1 ++ (i, x) :: q2) : List Int) : Multiset Int)
    rw [Multiset.mem_coe]
    exact List.mem_map.mpr ⟨(i, x), hq, rfl⟩
  have hids : (List.map Prod.fst q1 ++ i :: List.map Prod.fst q2).Nodup := by
    simpa using hnodup
  obtain ⟨hn1, hn2, hdisj⟩ := List.nodup_append.mp hids
  have hiq1 : i ∉ List.map Prod.fst q1 := fun hmem => hdisj hmem (List.mem_cons_self _ _)
  have hiq2 : i ∉ List.map Prod.fst q2 := (List.nodup_cons.mp hn2).1
  have hsplit : valsM (q1 ++ (i, x) :: q2) = valsM q1 + (x ::ₘ valsM q2) := by
    rw [valsM_append, valsM_cons]
  have hvals_erase : valsM (q1 ++ q2) = (valsM (q1 ++ (i, x) :: q2)).erase x := by
    rw [hsplit, valsM_append,
        Multiset.erase_add_right_pos _ (Multiset.mem_cons_self x _),
        Multiset.erase_cons_head]
  have hmd := modeDec_modeOk { s with locs := locsErase s.locs x i } x
      (valsM (q1 ++ (i, x) :: q2)) hc.freq_nodup hc.freq_pos
      (fun y => hc.freq_ok y) hc.mode_ok hxv
  obtain ⟨hr1, hr2, hr3, hr4⟩ := medianRemove_spec
      { modeDecDS { s with locs := locsErase s.locs x i } x with
          allVals :=
            ((modeDecDS { s with locs := locsErase s.locs x i } x).allVals).erase x }
      x
      (by
        simp only [modeDecDS_lower, modeDecDS_upper]
        exact hc.med_cross)
      (by
        simp only [modeDecDS_lower, modeDecDS_upper]
        exact hc.med_le)
      (by
        simp only [modeDecDS_lower, modeDecDS_upper]
        exact hc.med_ge)
      (by
        simp only [modeDecDS_lower, modeDecDS_upper]
        rw [hc.med_sum]
        exact hxv)
  simp only [removeTracking]
  refine ⟨?_, ?_, ?_, ?_, ?_, ?_, ?_, ?_, ?_, ?_⟩
  · intro y j
    simp only [medianRemove_locs, modeDecDS_locs]
    show j ∈ locsErase s.locs x i y ↔ _
    unfold locsErase
    by_cases hyx : y = x
    · subst hyx
      rw [if_pos rfl, Finset.mem_erase, hc.locs_ok y j]
      constructor
      · rintro ⟨hji, hmem⟩
        rcases List.mem_append.mp hmem with h | h
        · exact List.mem_append.mpr (Or.inl h)
        · rcases List.mem_cons.mp h with h | h
          · rw [Prod.mk.injEq] at h
            exact absurd h.1 hji
          · exact List.mem_append.mpr (Or.inr h)
      · intro hmem
        have hji : j ≠ i := by
          intro hj
          subst hj
          rcases List.mem_append.mp hmem with h | h
          · exact hiq1 (List.mem_map.mpr ⟨_, h, rfl⟩)
          · exact hiq2 (List.mem_map.mpr ⟨_, h, rfl⟩)
        refine ⟨hji, ?_⟩
        rcases List.mem_append.mp hmem with h | h
        · exact List.mem_append.mpr (Or.inl h)
        · exact List.mem_append.mpr (Or.inr (List.mem_cons_of_mem _ h))
    · rw [if_neg hyx, hc.locs_ok y j]
      constructor
      · intro h
        rcases List.mem_append.mp h with h | h
        · exact List.mem_append.mpr (Or.inl h)
        · rcases List.mem_cons.mp h with h | h
          · rw [Prod.mk.injEq] at h
            exact absurd h.2 hyx
          · exact List.mem_append.mpr (Or.inr h)
      · intro h
        rcases List.mem_append.mp h with h | h
        · exact List.mem_append.mpr (Or.inl h)
        · exact List.mem_append.mpr (Or.inr (List.mem_cons_of_mem _ h))
  · simp only [medianRemove_freq]
    rw [hmd.2]
    exact freqDec_nodup _ _ hc.freq_nodup
  · simp only [medianRemove_freq]
    rw [hmd.2]
    exact freqDec_pos _ _ hc.freq_pos
  · intro y
    simp only [medianRemove_freq]
    rw [hmd.2, freqLookup_dec _ _ _ hc.freq_nodup, hvals_erase]
    by_cases hyx : y = x
    · rw [if_pos hyx, hyx, Multiset.count_erase_self, hc.freq_ok]
    · rw [if_neg hyx, Multiset.count_erase_of_ne hyx, hc.freq_ok]
  · simp only [medianRemove_allVals, modeDecDS_allVals]
    rw [hc.vals_ok, hvals_erase]
  · rw [hr1]
    simp only [modeDecDS_lower, modeDecDS_upper]
    rw [hc.med_sum, hvals_erase]
  · exact hr3
  · exact hr4
  · exact hr2
  · rw [hvals_erase]
    simp only [medianRemove_modeVal, medianRemove_modeCnt]
    exact hmd.1

theorem consistent_rebalance (q : List Slot) (s : DS) (hc : Consistent q s) :
    Consistent q (rebalanceMedian s) := by
  obtain ⟨h1, h2, h3, h4⟩ := rebalance_spec s hc.med_cross
    (le_trans hc.med_ge (by omega)) (le_trans hc.med_le (by omega))
  refine ⟨?_, ?_, ?_, ?_, ?_, ?_, h3, h4, h2, ?_⟩
  · intro y j
    rw [rebalanceMedian_locs]
    exact hc.locs_ok y j
  · rw [rebalanceMedian_freq]
    exact hc.freq_nodup
  · rw [rebalanceMedian_freq]
    exact hc.freq_pos
  · intro y
    rw [rebalanceMedian_freq]
    exact hc.freq_ok y
  · rw [rebalanceMedian_allVals]
    exact hc.vals_ok
  · rw [h1]
    exact hc.med_sum
  · rw [rebalanceMedian_modeVal, rebalanceMedian_modeCnt]
    exact hc.mode_ok

theorem consistent_addVS (q : List Slot) (s : DS) (x : Int) (i : Nat)
    (hc : Consistent q s) : Consistent ((i, x) :: q) (addValueStructures s x i) := by
  refine consistent_congr ((i, x) :: q) (addTracking s x i) (addValueStructures s x i)
    ?_ ?_ ?_ ?_ ?_ ?_ ?_ (consistent_addTracking q s x i hc) <;>
    simp only [addValueStructures]

theorem consistent_removeVS (q1 q2 : List Slot) (s : DS) (x : Int) (i : Nat)
    (hc : Consistent (q1 ++ (i, x) :: q2) s)
    (hnodup : ((q1 ++ (i, x) :: q2).map Prod.fst).Nodup) :
    Consistent (q1 ++ q2) (removeValueStructures s x i) := by
  refine consistent_congr (q1 ++ q2) (removeTracking s x i)
    (removeValueStructures s x i) ?_ ?_ ?_ ?_ ?_ ?_ ?_
    (consistent_removeTracking q1 q2 s x i hc hnodup) <;>
    simp only [removeValueStructures]

theorem consistent_mergeStep (q : List Slot) (t : DS) (p : Slot)
    (hc : Consistent q t) : Consistent (p :: q) (mergeStep t p) := by
  refine consistent_congr (p :: q) (addTracking t p.2 p.1) (mergeStep t p)
    ?_ ?_ ?_ ?_ ?_ ?_ ?_ (consistent_addTracking q t p.2 p.1 hc) <;>
    simp only [mergeStep]

theorem consistent_foldl_addVS (l : List Slot) :
    ∀ (t : DS) (q : List Slot), Consistent q t →
      Consistent (l.reverse ++ q)
        (l.foldl (fun u p => addValueStructures u p.2 p.1) t) := by
  induction l with
  | nil =>
      intro t q hc
      simpa using hc
  | cons p r ih =>
      intro t q hc
      rw [List.foldl_cons]
      have h1 : Consistent (p :: q) (addValueStructures t p.2 p.1) :=
        consistent_addVS q t p.2 p.1 hc
      have h2 := ih _ _ h1
      apply consistent_perm _ _ _ ?_ h2
      rw [List.reverse_cons, List.append_assoc]
      exact List.Perm.refl _

theorem consistent_foldl_mergeStep (l : List Slot) :
    ∀ (t : DS) (q : List Slot), Consistent q t →
      Consistent (l.reverse ++ q) (l.foldl mergeStep t) := by
  induction l with
  | nil =>
      intro t q hc
      simpa using hc
  | cons p r ih =>
      intro t q hc
      rw [List.foldl_cons]
      have h2 := ih _ _ (consistent_mergeStep q t p hc)
      apply consistent_perm _ _ _ ?_ h2
      rw [List.reverse_cons, List.append_assoc]
      exact List.Perm.refl _

theorem consistent_of_cleared (t : DS) (hlocs : ∀ y, t.locs y = ∅)
    (hfreq : t.freq = []) (hvals : t.allVals = 0) (hlo : t.lower = 0)
    (hup : t.upper = 0) (hmc : t.modeCnt = 0) : Consistent [] t := by
  refine ⟨?_, ?_, ?_, ?_, ?_, ?_, ?_, ?_, ?_, ?_⟩
  · intro y j
    rw [hlocs y]
    simp
  · rw [hfreq]
    simp
  · rw [hfreq]
    simp
  · intro y
    rw [hfreq]
    show (0 : Nat) = _
    rfl
  · rw [hvals]
    rfl
  · rw [hlo, hup]
    rfl
  · rw [hlo, hup]
  · rw [hlo, hup]
    simp
  · intro a ha
    rw [hlo] at ha
    simp at ha
  · rw [hmc]
    exact ⟨fun _ => rfl, fun hne => absurd rfl hne⟩

theorem consistent_rebuildAll (s : DS) : Consistent s.seq (rebuildAll s) := by
  simp only [rebuildAll]
  have hbase := consistent_of_cleared
    { s with locs := fun _ => (∅ : Finset Nat), freq := [],
             allVals := (0 : Multiset Int), lower := (0 : Multiset Int),
             upper := (0 : Multiset Int), pool := ([] : List Nat),
             modeCnt := 0, modeVal := 0 }
    (fun _ => rfl) rfl rfl rfl rfl rfl
  have h := consistent_foldl_addVS s.seq _ [] hbase
  apply consistent_perm (s.seq.reverse ++ []) s.seq _ ?_ h
  rw [List.append_nil]
  exact List.reverse_perm s.seq

/-!  ## Pool lemmas  -/

theorem foldl_addVS_pool (l : List Slot) :
    ∀ t : DS, (l.foldl (fun u p => addValueStructures u p.2 p.1) t).pool =
      t.pool ++ l.map Prod.fst := by
  induction l with
  | nil => intro t; simp
  | cons p r ih =>
      intro t
      rw [List.foldl_cons, ih]
      simp

theorem foldl_mergeStep_pool (l : List Slot) :
    ∀ t : DS, (l.foldl mergeStep t).pool = t.pool ++ l.map Prod.fst := by
  induction l with
  | nil => intro t; simp
  | cons p r ih =>
      intro t
      rw [List.foldl_cons, ih]
      simp [mergeStep, poolAdd]

theorem rebuildAll_pool (s : DS) : (rebuildAll s).pool = s.seq.map Prod.fst := by
  simp only [rebuildAll]
  rw [foldl_addVS_pool]
  rfl

theorem getLastD_default_irrel (l : List Nat) (h : l ≠ []) (d1 d2 : Nat) :
    l.getLastD d1 = l.getLastD d2 := by
  rw [List.getLastD_eq_getLast?, List.getLastD_eq_getLast?]
  cases hl : l.getLast? with
  | none => exact absurd (List.getLast?_eq_none_iff.mp hl) h
  | some y => rfl

theorem poolRemove_coe (p : List Nat) (i : Nat) :
    ((poolRemove p i : List Nat) : Multiset Nat) = (↑p : Multiset Nat).erase i := by
  induction p with
  | nil => rfl
  | cons a t ih =>
      by_cases hai : a = i
      · subst hai
        show ((poolRemove (a :: t) a : List Nat) : Multiset Nat) = _
        unfold poolRemove
        rw [List.findIdx?_cons, if_pos (show (a == a) = true by simp)]
        cases ht : t with
        | nil =>
            show ((([a].set 0 ([a].getLastD 0)).dropLast : List Nat) : Multiset Nat) = _
            simp
        | cons b t2 =>
            rw [← ht]
            have htne : t ≠ [] := by rw [ht]; simp
            show (((a :: t).set 0 ((a :: t).getLastD 0)).dropLast : Multiset Nat) = _
            rw [List.getLastD_cons]
            show ((t.getLastD a :: t).dropLast : Multiset Nat) = _
            rw [List.dropLast_cons_of_ne_nil htne]
            have hsplit : t.dropLast ++ [t.getLastD a] = t := by
              have hh := List.dropLast_append_getLast htne
              rw [List.getLastD_eq_getLast?, List.getLast?_eq_getLast t htne]
              simpa using hh
            rw [show ((a :: t : List Nat) : Multiset Nat) =
              a ::ₘ (t : Multiset Nat) from rfl, Multiset.erase_cons_head]
            apply Multiset.coe_eq_coe.mpr
            have hperm : (t.dropLast ++ [t.getLastD a]).Perm
                (t.getLastD a :: t.dropLast) := List.perm_append_singleton _ _
            have h2 : (t.dropLast ++ [t.getLastD a]).Perm t := by
              rw [hsplit]
            exact hperm.symm.trans h2
      · show ((poolRemove (a :: t) i : List Nat) : Multiset Nat) = _
        unfold poolRemove
        rw [List.findIdx?_cons, if_neg (show ¬(a == i) = true by simp [hai]),
            List.findIdx?_succ]
        cases hf : t.findIdx? (fun j => j == i) with
        | none =>
            rw [show Option.map (fun i => i + 1) (none : Option Nat) = none from rfl]
            have hnotmem : i ∉ (a :: t) := by
              intro hmem
              rcases List.mem_cons.mp hmem with h | h
              · exact hai h.symm
              · have := List.findIdx?_eq_none_iff.mp hf i h
                simp at this
            rw [Multiset.erase_of_not_mem (by simpa using hnotmem)]
        | some idx =>
            rw [show Option.map (fun i => i + 1) (some idx) = some (idx + 1) from rfl]
            have htne : t ≠ [] := by
              intro h0
              rw [h0] at hf
              simp [List.findIdx?] at hf
            show (((a :: t).set (idx + 1) ((a :: t).getLastD 0)).dropLast :
              Multiset Nat) = _
            rw [List.getLastD_cons, List.set_cons_succ]
            have hsetne : t.set idx (t.getLastD a) ≠ [] := by
              intro h0
              have := congrArg List.length h0
              rw [List.length_set] at this
              exact htne (List.length_eq_zero.mp this)
            rw [List.dropLast_cons_of_ne_nil hsetne]
            have hrw : t.set idx (t.getLastD a) = t.set idx (t.getLastD 0) := by
              rw [getLastD_default_irrel t htne]
            rw [hrw]
            have hpr : (t.set idx (t.getLastD 0)).dropLast = poolRemove t i := by
              unfold poolRemove
              rw [hf]
            rw [hpr]
            show ((a :: poolRemove t i : List Nat) : Multiset Nat) = _
            have : ((a :: poolRemove t i : List Nat) : Multiset Nat) =
                a ::ₘ ((poolRemove t i : List Nat) : Multiset Nat) := rfl
            rw [this, ih]
            rw [show ((a :: t : List Nat) : Multiset Nat) =
              a ::ₘ (t : Multiset Nat) from rfl]
            rw [Multiset.erase_cons_tail _ (fun h => hai h)]

theorem poolRemove_length_mem (p : List Nat) (i : Nat) (h : i ∈ p) :
    (poolRemove p i).length = p.length - 1 := by
  have hc := congrArg Multiset.card (poolRemove_coe p i)
  rw [Multiset.coe_card, Multiset.card_erase_of_mem (Multiset.mem_coe.mpr h),
      Multiset.coe_card, Nat.pred_eq_sub_one] at hc
  exact hc

/-!  ## Invariant preservation, operation by operation  -/

theorem idsM_append_cons (q1 q2 : List Slot) (i : Nat) (x : Int) :
    ((q1 ++ (i, x) :: q2).map Prod.fst : Multiset Nat) =
      (q1.map Prod.fst : Multiset Nat) + (i ::ₘ (q2.map Prod.fst : Multiset Nat)) := by
  rw [List.map_append, List.map_cons]
  rfl

theorem idsM_append (q1 q2 : List Slot) :
    ((q1 ++ q2).map Prod.fst : Multiset Nat) =
      (q1.map Prod.fst : Multiset Nat) + (q2.map Prod.fst : Multiset Nat) := by
  rw [List.map_append]
  rfl

theorem inv_emptyDS : Inv emptyDS := by
  refine ⟨?_, le_refl _, List.nodup_nil, ?_, ?_, le_refl _⟩
  · exact consistent_of_cleared emptyDS (fun _ => rfl) rfl rfl rfl rfl rfl
  · intro j hj
    simp [emptyDS] at hj
  · exact le_refl _

theorem inv_removeAt (s : DS) (q1 q2 : List Slot) (x : Int) (i : Nat)
    (hq : s.seq = q1 ++ (i, x) :: q2) (hInv : Inv s) :
    Inv (removeValueStructures { s with seq := q1 ++ q2 } x i) := by
  have hlen : s.seq.length = q1.length + q2.length + 1 := by
    rw [hq]
    simp
    omega
  have hnodup : ((q1 ++ (i, x) :: q2).map Prod.fst).Nodup := by
    rw [← hq]
    exact hInv.ids_nodup
  have hsub : (q1 ++ q2).Sublist (q1 ++ (i, x) :: q2) :=
    (List.sublist_cons_self (i, x) q2).append_left q1
  have hidm : i ∈ s.seq.map Prod.fst := by
    rw [hq]
    exact List.mem_map.mpr ⟨(i, x), by simp, rfl⟩
  have hipool : i ∈ s.pool := by
    have := Multiset.mem_of_le hInv.pool_sub (Multiset.mem_coe.mpr hidm)
    exact Multiset.mem_coe.mp this
  have hpoolpos : 0 < s.pool.length := List.length_pos.mpr (by
    intro h0
    rw [h0] at hipool
    simp at hipool)
  have hcon0 : Consistent (q1 ++ (i, x) :: q2) { s with seq := q1 ++ q2 } := by
    refine consistent_congr _ s _ rfl rfl rfl rfl rfl rfl rfl ?_
    rw [← hq]
    exact hInv.con
  refine ⟨?_, ?_, ?_, ?_, ?_, ?_⟩
  · have hc := consistent_removeVS q1 q2 { s with seq := q1 ++ q2 } x i hcon0 hnodup
    have hseq : (removeValueStructures { s with seq := q1 ++ q2 } x i).seq =
        q1 ++ q2 := by
      rw [removeVS_seq]
    rw [hseq]
    exact hc
  · rw [removeVS_seq, removeVS_sz]
    show (q1 ++ q2).length ≤ s.sz - 1
    have := hInv.sz_ge
    simp only [List.length_append] at *
    omega
  · rw [removeVS_seq]
    exact (hsub.map Prod.fst).nodup hnodup
  · rw [removeVS_seq, removeVS_nextId]
    intro j hj
    apply hInv.ids_lt
    rw [hq]
    exact (hsub.map Prod.fst).mem hj
  · rw [removeVS_seq, removeVS_pool]
    show ((q1 ++ q2).map Prod.fst : Multiset Nat) ≤ _
    rw [poolRemove_coe]
    have hdecomp : ((q1 ++ q2).map Prod.fst : Multiset Nat) =
        ((s.seq.map Prod.fst : Multiset Nat)).erase i := by
      rw [hq, idsM_append_cons, idsM_append,
          Multiset.erase_add_right_pos _ (Multiset.mem_cons_self i _),
          Multiset.erase_cons_head]
    rw [hdecomp]
    exact Multiset.erase_le_erase i hInv.pool_sub
  · rw [removeVS_pool, removeVS_sz]
    rw [poolRemove_length_mem _ _ hipool]
    show s.pool.length - 1 ≤ s.sz - 1
    have := hInv.pool_le
    omega

theorem inv_pushBack (s : DS) (x : Int) (hInv : Inv s) : Inv (pushBack s x) := by
  have hfresh : s.nextId ∉ s.seq.map Prod.fst := fun hmem =>
    absurd (hInv.ids_lt _ hmem) (lt_irrefl _)
  refine ⟨?_, ?_, ?_, ?_, ?_, ?_⟩
  · have hc0 : Consistent s.seq
        { s with seq := s.seq ++ [(s.nextId, x)], nextId := s.nextId + 1 } :=
      consistent_congr _ s _ rfl rfl rfl rfl rfl rfl rfl hInv.con
    have hc := consistent_addVS s.seq _ x s.nextId hc0
    have hperm : ((s.nextId, x) :: s.seq).Perm (s.seq ++ [(s.nextId, x)]) :=
      (List.perm_append_singleton _ _).symm
    have hc2 := consistent_perm _ _ _ hperm hc
    show Consistent (pushBack s x).seq (pushBack s x)
    have hseq : (pushBack s x).seq = s.seq ++ [(s.nextId, x)] := by
      simp [pushBack]
    rw [hseq]
    exact hc2
  · show (pushBack s x).seq.length ≤ (pushBack s x).sz
    have hseq : (pushBack s x).seq = s.seq ++ [(s.nextId, x)] := by
      simp [pushBack]
    have hsz : (pushBack s x).sz = s.sz + 1 := by
      simp [pushBack]
    rw [hseq, hsz]
    simp only [List.length_append, List.length_singleton]
    have := hInv.sz_ge
    omega
  · have hseq : (pushBack s x).seq = s.seq ++ [(s.nextId, x)] := by
      simp [pushBack]
    rw [hseq, List.map_append]
    rw [List.nodup_append]
    refine ⟨hInv.ids_nodup, by simp, ?_⟩
    intro a ha hb
    simp only [List.map_cons, List.map_nil, List.mem_singleton] at hb
    subst hb
    exact hfresh ha
  · have hseq : (pushBack s x).seq = s.seq ++ [(s.nextId, x)] := by
      simp [pushBack]
    have hnid : (pushBack s x).nextId = s.nextId + 1 := by
      simp [pushBack]
    rw [hseq, hnid, List.map_append]
    intro j hj
    rcases List.mem_append.mp hj with h | h
    · exact lt_trans (hInv.ids_lt j h) (by omega)
    · simp only [List.map_cons, List.map_nil, List.mem_singleton] at h
      subst h
      omega
  · have hseq : (pushBack s x).seq = s.seq ++ [(s.nextId, x)] := by
      simp [pushBack]
    have hpool : (pushBack s x).pool = s.pool ++ [s.nextId] := by
      simp [pushBack]
    rw [hseq, hpool]
    rw [show ((s.seq ++ [(s.nextId, x)]).map Prod.fst : Multiset Nat) =
      (s.seq.map Prod.fst : Multiset Nat) + {s.nextId} from by
        rw [List.map_append]; rfl]
    rw [show ((s.pool ++ [s.nextId] : List Nat) : Multiset Nat) =
      (s.pool : Multiset Nat) + {s.nextId} from rfl]
    exact add_le_add_right hInv.pool_sub _
  · have hpool : (pushBack s x).pool = s.pool ++ [s.nextId] := by
      simp [pushBack]
    have hsz : (pushBack s x).sz = s.sz + 1 := by
      simp [pushBack]
    rw [hpool, hsz]
    simp only [List.length_append, List.length_singleton]
    have := hInv.pool_le
    omega

theorem inv_pushFront (s : DS) (x : Int) (hInv : Inv s) : Inv (pushFront s x) := by
  have hfresh : s.nextId ∉ s.seq.map Prod.fst := fun hmem =>
    absurd (hInv.ids_lt _ hmem) (lt_irrefl _)
  refine ⟨?_, ?_, ?_, ?_, ?_, ?_⟩
  · have hc0 : Consistent s.seq
        { s with seq := (s.nextId, x) :: s.seq, nextId := s.nextId + 1 } :=
      consistent_congr _ s _ rfl rfl rfl rfl rfl rfl rfl hInv.con
    have hc := consistent_addVS s.seq _ x s.nextId hc0
    have hseq : (pushFront s x).seq = (s.nextId, x) :: s.seq := by
      simp [pushFront]
    show Consistent (pushFront s x).seq (pushFront s x)
    rw [hseq]
    exact hc
  · have hseq : (pushFront s x).seq = (s.nextId, x) :: s.seq := by
      simp [pushFront]
    have hsz : (pushFront s x).sz = s.sz + 1 := by
      simp [pushFront]
    rw [hseq, hsz]
    simp only [List.length_cons]
    have := hInv.sz_ge
    omega
  · have hseq : (pushFront s x).seq = (s.nextId, x) :: s.seq := by
      simp [pushFront]
    rw [hseq, List.map_cons, List.nodup_cons]
    exact ⟨hfresh, hInv.ids_nodup⟩
  · have hseq : (pushFront s x).seq = (s.nextId, x) :: s.seq := by
      simp [pushFront]
    have hnid : (pushFront s x).nextId = s.nextId + 1 := by
      simp [pushFront]
    rw [hseq, hnid, List.map_cons]
    intro j hj
    rcases List.mem_cons.mp hj with h | h
    · subst h
      omega
    · exact lt_trans (hInv.ids_lt j h) (by omega)
  · have hseq : (pushFront s x).seq = (s.nextId, x) :: s.seq := by
      simp [pushFront]
    have hpool : (pushFront s x).pool = s.pool ++ [s.nextId] := by
      simp [pushFront]
    rw [hseq, hpool]
    rw [show (((s.nextId, x) :: s.seq).map Prod.fst : Multiset Nat) =
      s.nextId ::ₘ (s.seq.map Prod.fst : Multiset Nat) from rfl]
    rw [show ((s.pool ++ [s.nextId] : List Nat) : Multiset Nat) =
      (s.pool : Multiset Nat) + {s.nextId} from rfl]
    have h1 : s.nextId ::ₘ (s.seq.map Prod.fst : Multiset Nat) =
        (s.seq.map Prod.fst : Multiset Nat) + {s.nextId} := by
      rw [add_comm, Multiset.singleton_add]
    rw [h1]
    exact add_le_add_right hInv.pool_sub _
  · have hpool : (pushFront s x).pool = s.pool ++ [s.nextId] := by
      simp [pushFront]
    have hsz : (pushFront s x).sz = s.sz + 1 := by
      simp [pushFront]
    rw [hpool, hsz]
    simp only [List.length_append, List.length_singleton]
    have := hInv.pool_le
    omega

theorem inv_popBack (s : DS) (hInv : Inv s) : Inv (popBack s) := by
  cases h : s.seq.getLast? with
  | none =>
      have : popBack s = s := by
        simp [popBack, h]
      rw [this]
      exact hInv
  | some p =>
      have hne : s.seq ≠ [] := by
        intro h0
        rw [h0] at h
        simp at h
      have hlast : s.seq.getLast hne = p := by
        have := List.getLast?_eq_getLast s.seq hne
        rw [h] at this
        exact (Option.some_injective _ this).symm
      have hq : s.seq = s.seq.dropLast ++ (p.1, p.2) :: [] := by
        have := List.dropLast_append_getLast hne
        rw [hlast] at this
        exact this.symm
      have hinv2 := inv_removeAt s s.seq.dropLast [] p.2 p.1 hq hInv
      rw [List.append_nil] at hinv2
      have : popBack s = removeValueStructures { s with seq := s.seq.dropLast } p.2 p.1 := by
        simp [popBack, h]
      rw [this]
      exact hinv2

theorem inv_popFront (s : DS) (hInv : Inv s) : Inv (popFront s) := by
  cases hq : s.seq with
  | nil =>
      have : popFront s = s := by
        simp [popFront, hq]
      rw [this]
      exact hInv
  | cons p t =>
      have hq2 : s.seq = [] ++ (p.1, p.2) :: t := by
        rw [hq]
        simp
      have hinv2 := inv_removeAt s [] t p.2 p.1 hq2 hInv
      rw [List.nil_append] at hinv2
      have : popFront s = removeValueStructures { s with seq := t } p.2 p.1 := by
        simp [popFront, hq]
      rw [this]
      exact hinv2

theorem eraseP_decomp (q1 q2 : List Slot) (x : Int) (i : Nat)
    (hnodup : ((q1 ++ (i, x) :: q2).map Prod.fst).Nodup) :
    (q1 ++ (i, x) :: q2).eraseP (fun q => q.1 == i) = q1 ++ q2 := by
  have hids : (List.map Prod.fst q1 ++ i :: List.map Prod.fst q2).Nodup := by
    simpa using hnodup
  obtain ⟨hn1, hn2, hdisj⟩ := List.nodup_append.mp hids
  have hiq1 : i ∉ List.map Prod.fst q1 := fun hmem =>
    hdisj hmem (List.mem_cons_self _ _)
  rw [List.eraseP_append_right _ (fun b hb => by
    simp only [beq_iff_eq]
    intro hb1
    exact hiq1 (List.mem_map.mpr ⟨b, hb, hb1⟩))]
  rw [List.eraseP_cons_of_pos (by simp)]

theorem map_setVal (q1 q2 : List Slot) (x newVal : Int) (i : Nat)
    (hnodup : ((q1 ++ (i, x) :: q2).map Prod.fst).Nodup) :
    (q1 ++ (i, x) :: q2).map (fun p => if p.1 = i then (p.1, newVal) else p) =
      q1 ++ (i, newVal) :: q2 := by
  have hids : (List.map Prod.fst q1 ++ i :: List.map Prod.fst q2).Nodup := by
    simpa using hnodup
  obtain ⟨hn1, hn2, hdisj⟩ := List.nodup_append.mp hids
  have hiq1 : i ∉ List.map Prod.fst q1 := fun hmem =>
    hdisj hmem (List.mem_cons_self _ _)
  have hiq2 : i ∉ List.map Prod.fst q2 := (List.nodup_cons.mp hn2).1
  rw [List.map_append, List.map_cons]
  congr 1
  · rw [List.map_congr_left (fun p hp => ?_), List.map_id]
    show (if p.1 = i then (p.1, newVal) else p) = id p
    rw [if_neg (fun h => hiq1 (List.mem_map.mpr ⟨p, hp, h⟩))]
    rfl
  · congr 1
    · rw [if_pos rfl]
    · rw [List.map_congr_left (fun p hp => ?_), List.map_id]
      show (if p.1 = i then (p.1, newVal) else p) = id p
      rw [if_neg (fun h => hiq2 (List.mem_map.mpr ⟨p, hp, h⟩))]
      rfl

theorem inv_deleteVal (s : DS) (x : Int) (pick : Nat) (hInv : Inv s) :
    Inv (deleteVal s x pick).1 := by
  by_cases hg : pick ∈ s.locs x
  · have hmem : (pick, x) ∈ s.seq := (hInv.con.locs_ok x pick).mp hg
    obtain ⟨q1, q2, hq⟩ := List.append_of_mem hmem
    have hnodup : ((q1 ++ (pick, x) :: q2).map Prod.fst).Nodup := by
      rw [← hq]
      exact hInv.ids_nodup
    have herase : s.seq.eraseP (fun q => q.1 == pick) = q1 ++ q2 := by
      rw [hq]
      exact eraseP_decomp q1 q2 x pick hnodup
    have hres : (deleteVal s x pick).1 =
        removeValueStructures { s with seq := q1 ++ q2 } x pick := by
      simp only [deleteVal, if_pos hg]
      rw [herase]
    rw [hres]
    exact inv_removeAt s q1 q2 x pick hq hInv
  · have hres : (deleteVal s x pick).1 = s := by
      simp only [deleteVal, if_neg hg]
    rw [hres]
    exact hInv

theorem inv_update (s : DS) (a b : Int) (pick : Nat) (hInv : Inv s) :
    Inv (update s a b pick).1 := by
  by_cases hg : pick ∈ s.locs a
  · have hmem : (pick, a) ∈ s.seq := (hInv.con.locs_ok a pick).mp hg
    obtain ⟨q1, q2, hq⟩ := List.append_of_mem hmem
    have hnodup : ((q1 ++ (pick, a) :: q2).map Prod.fst).Nodup := by
      rw [← hq]
      exact hInv.ids_nodup
    have hmap : s.seq.map (fun p => if p.1 = pick then (p.1, b) else p) =
        q1 ++ (pick, b) :: q2 := by
      rw [hq]
      exact map_setVal q1 q2 a b pick hnodup
    have hres : (update s a b pick).1 =
        addValueStructures
          { removeTracking s a pick with seq := q1 ++ (pick, b) :: q2 } b pick := by
      simp only [update, if_pos hg]
      rw [show (removeTracking s a pick).seq = s.seq from removeTracking_seq s a pick,
          hmap]
    rw [hres]
    have hids_eq : ((q1 ++ (pick, b) :: q2).map Prod.fst) =
        ((q1 ++ (pick, a) :: q2).map Prod.fst) := by
      rw [List.map_append, List.map_append, List.map_cons, List.map_cons]
    have hcon1 : Consistent (q1 ++ (pick, a) :: q2) s := by
      rw [← hq]
      exact hInv.con
    have hcon2 : Consistent (q1 ++ q2) (removeTracking s a pick) :=
      consistent_removeTracking q1 q2 s a pick hcon1 hnodup
    have hcon3 : Consistent (q1 ++ q2)
        { removeTracking s a pick with seq := q1 ++ (pick, b) :: q2 } :=
      consistent_congr _ (removeTracking s a pick) _ rfl rfl rfl rfl rfl rfl rfl hcon2
    have hcon4 := consistent_addVS (q1 ++ q2) _ b pick hcon3
    have hcon5 := consistent_perm _ _ _
      (List.perm_middle.symm : ((pick, b) :: (q1 ++ q2)).Perm (q1 ++ (pick, b) :: q2))
      hcon4
    refine ⟨?_, ?_, ?_, ?_, ?_, ?_⟩
    · have hseq : (addValueStructures
          { removeTracking s a pick with seq := q1 ++ (pick, b) :: q2 } b pick).seq =
        q1 ++ (pick, b) :: q2 := by
        rw [addVS_seq]
      rw [hseq]
      exact hcon5
    · rw [addVS_seq, addVS_sz]
      show (q1 ++ (pick, b) :: q2).length ≤ (removeTracking s a pick).sz + 1
      rw [removeTracking_sz]
      have h1 : (q1 ++ (pick, b) :: q2).length = s.seq.length := by
        rw [hq]
        simp
      rw [h1]
      have := hInv.sz_ge
      omega
    · rw [addVS_seq, hids_eq, ← hq]
      exact hInv.ids_nodup
    · rw [addVS_seq, addVS_nextId, hids_eq, ← hq]
      show ∀ j ∈ s.seq.map Prod.fst, j < (removeTracking s a pick).nextId
      rw [removeTracking_nextId]
      exact hInv.ids_lt
    · rw [addVS_seq, addVS_pool, hids_eq, ← hq]
      rw [removeTracking_pool]
      rw [show ((s.pool ++ [pick] : List Nat) : Multiset Nat) =
        (s.pool : Multiset Nat) + {pick} from rfl]
      exact le_trans hInv.pool_sub (Multiset.le_add_right _ _)
    · rw [addVS_pool, addVS_sz, removeTracking_pool, removeTracking_sz]
      simp only [List.length_append, List.length_singleton]
      have := hInv.pool_le
      omega
  · have hres : (update s a b pick).1 = s := by
      simp only [update, if_neg hg]
    rw [hres]
    exact hInv

theorem inv_of_seq_perm (s : DS) (q2 : List Slot) (hperm : s.seq.Perm q2)
    (hInv : Inv s) : Inv { s with seq := q2 } := by
  refine ⟨?_, ?_, ?_, ?_, ?_, ?_⟩
  · have hc : Consistent q2 s := consistent_perm _ _ _ hperm hInv.con
    exact consistent_congr _ s _ rfl rfl rfl rfl rfl rfl rfl hc
  · show q2.length ≤ s.sz
    rw [← hperm.length_eq]
    exact hInv.sz_ge
  · exact (hperm.map Prod.fst).nodup hInv.ids_nodup
  · intro j hj
    exact hInv.ids_lt j ((hperm.map Prod.fst).mem_iff.mpr hj)
  · show ((q2.map Prod.fst : List Nat) : Multiset Nat) ≤ _
    rw [← Multiset.coe_eq_coe.mpr (hperm.map Prod.fst)]
    exact hInv.pool_sub
  · exact hInv.pool_le

theorem inv_reverseDS (s : DS) (hInv : Inv s) : Inv (reverseDS s) :=
  inv_of_seq_perm s s.seq.reverse (List.reverse_perm s.seq).symm hInv

theorem inv_rotate (s : DS) (k : Nat) (hInv : Inv s) : Inv (rotate s k) := by
  simp only [rotate]
  by_cases h0 : s.sz = 0
  · rw [if_pos h0]
    exact hInv
  · rw [if_neg h0]
    by_cases h2 : k % s.sz = 0
    · rw [if_pos h2]
      exact hInv
    · rw [if_neg h2]
      apply inv_of_seq_perm s _ ?_ hInv
      have h1 : s.seq.Perm
          (s.seq.take (s.sz - k % s.sz) ++ s.seq.drop (s.sz - k % s.sz)) := by
        rw [List.take_append_drop]
      exact h1.trans List.perm_append_comm

theorem inv_clearDS (s : DS) : Inv (clearDS s) := by
  refine ⟨?_, le_refl _, List.nodup_nil, ?_, ?_, le_refl _⟩
  · exact consistent_of_cleared (clearDS s) (fun _ => rfl) rfl rfl rfl rfl rfl
  · intro j hj
    simp [clearDS] at hj
  · exact le_refl _

theorem inv_rebuildAll (t : DS) (hnodup : (t.seq.map Prod.fst).Nodup)
    (hlt : ∀ j ∈ t.seq.map Prod.fst, j < t.nextId) : Inv (rebuildAll t) := by
  refine ⟨?_, ?_, ?_, ?_, ?_, ?_⟩
  · rw [show (rebuildAll t).seq = t.seq from rebuildAll_seq t]
    exact consistent_rebuildAll t
  · rw [rebuildAll_seq, rebuildAll_sz]
    omega
  · rw [rebuildAll_seq]
    exact hnodup
  · rw [rebuildAll_seq, rebuildAll_nextId]
    exact hlt
  · rw [rebuildAll_seq, rebuildAll_pool]
  · rw [rebuildAll_pool, rebuildAll_sz]
    rw [List.length_map]
    omega

theorem writeBack_ids (s : DS) (a : List Int) (hlen : a.length = s.seq.length) :
    (writeBack s a).seq.map Prod.fst = s.seq.map Prod.fst := by
  simp only [writeBack]
  exact zip_keepFst_fst s.seq a hlen.symm

theorem inv_sortAscending (s : DS) (hInv : Inv s) : Inv (sortAscending s) := by
  simp only [sortAscending]
  by_cases h1 : s.sz ≤ 1
  · rw [if_pos h1]
    exact hInv
  · rw [if_neg h1]
    have hlen : (List.insertionSort (· ≤ ·) (traverse s)).length = s.seq.length := by
      rw [List.length_insertionSort]
      simp [traverse]
    apply inv_rebuildAll
    · rw [writeBack_ids s _ hlen]
      exact hInv.ids_nodup
    · rw [writeBack_ids s _ hlen]
      exact hInv.ids_lt

theorem inv_sortDescending (s : DS) (hInv : Inv s) : Inv (sortDescending s) := by
  simp only [sortDescending]
  by_cases h1 : s.sz ≤ 1
  · rw [if_pos h1]
    exact hInv
  · rw [if_neg h1]
    have hlen : (List.insertionSort (· ≤ ·) (traverse s)).reverse.length
        = s.seq.length := by
      rw [List.length_reverse, List.length_insertionSort]
      simp [traverse]
    apply inv_rebuildAll
    · rw [writeBack_ids s _ hlen]
      exact hInv.ids_nodup
    · rw [writeBack_ids s _ hlen]
      exact hInv.ids_lt

theorem nextPermList_length (l : List Int) : (nextPermList l).1.length = l.length := by
  unfold nextPermList
  cases hm : (l.permutations'.filter (fun m => decide (l < m))).min? with
  | none =>
      show (List.insertionSort (· ≤ ·) l).length = l.length
      exact List.length_insertionSort _ l
  | some m =>
      have hmem : m ∈ l.permutations'.filter (fun m => decide (l < m)) :=
        List.min?_mem (fun a b => min_choice a b) hm
      have hperm : m.Perm l := List.mem_permutations'.mp (List.mem_of_mem_filter hmem)
      exact hperm.length_eq

theorem prevPermList_length (l : List Int) : (prevPermList l).1.length = l.length := by
  unfold prevPermList
  cases hm : (l.permutations'.filter (fun m => decide (m < l))).max? with
  | none =>
      show (List.insertionSort (· ≤ ·) l).reverse.length = l.length
      rw [List.length_reverse]
      exact List.length_insertionSort _ l
  | some m =>
      have hmem : m ∈ l.permutations'.filter (fun m => decide (m < l)) :=
        List.max?_mem (fun a b => max_choice a b) hm
      have hperm : m.Perm l := List.mem_permutations'.mp (List.mem_of_mem_filter hmem)
      exact hperm.length_eq

theorem inv_nextPermutation (s : DS) (hInv : Inv s) : Inv (nextPermutation s).1 := by
  simp only [nextPermutation]
  by_cases h1 : s.sz ≤ 1
  · rw [if_pos h1]
    exact hInv
  · rw [if_neg h1]
    have hlen : (nextPermList (traverse s)).1.length = s.seq.length := by
      rw [nextPermList_length]
      simp [traverse]
    apply inv_rebuildAll
    · rw [writeBack_ids s _ hlen]
      exact hInv.ids_nodup
    · rw [writeBack_ids s _ hlen]
      exact hInv.ids_lt

theorem inv_prevPermutation (s : DS) (hInv : Inv s) : Inv (prevPermutation s).1 := by
  simp only [prevPermutation]
  by_cases h1 : s.sz ≤ 1
  · rw [if_pos h1]
    exact hInv
  · rw [if_neg h1]
    have hlen : (prevPermList (traverse s)).1.length = s.seq.length := by
      rw [prevPermList_length]
      simp [traverse]
    apply inv_rebuildAll
    · rw [writeBack_ids s _ hlen]
      exact hInv.ids_nodup
    · rw [writeBack_ids s _ hlen]
      exact hInv.ids_lt

theorem merge_s1_eq (s o : DS) (hs : s.seq.length ≤ s.sz) :
    (if s.sz = 0 then { s with seq := o.seq } else { s with seq := s.seq ++ o.seq })
      = { s with seq := s.seq ++ o.seq } := by
  by_cases hz : s.sz = 0
  · have hnil : s.seq = [] := by
      have h2 := hs
      rw [hz] at h2
      exact List.eq_nil_of_length_eq_zero (Nat.le_zero.mp h2)
    rw [if_pos hz, hnil, List.nil_append]
  · rw [if_neg hz]

theorem mergeDS_fst (s o : DS) (hz : o.sz ≠ 0) (hs : s.seq.length ≤ s.sz) :
    (mergeDS s o).1 =
      rebalanceMedian (o.seq.foldl mergeStep
        { s with seq := s.seq ++ o.seq, sz := s.sz + o.sz,
                 nextId := max s.nextId o.nextId }) := by
  simp only [mergeDS, if_neg hz]
  rw [merge_s1_eq s o hs]

theorem inv_mergeLeft (s o : DS) (hs : Inv s) (ho : Inv o)
    (hdisj : ∀ i ∈ s.seq.map Prod.fst, i ∉ o.seq.map Prod.fst) :
    Inv (mergeDS s o).1 := by
  by_cases hz : o.sz = 0
  · simp only [mergeDS, if_pos hz]
    exact hs
  · rw [mergeDS_fst s o hz hs.sz_ge]
    obtain ⟨R, hR⟩ : ∃ R : DS,
        R = { s with seq := s.seq ++ o.seq, sz := s.sz + o.sz,
                     nextId := max s.nextId o.nextId } := ⟨_, rfl⟩
    rw [← hR]
    have hcon1 : Consistent s.seq R :=
      consistent_congr s.seq s R (by rw [hR]) (by rw [hR]) (by rw [hR])
        (by rw [hR]) (by rw [hR]) (by rw [hR]) (by rw [hR]) hs.con
    have hcon2 : Consistent (o.seq.reverse ++ s.seq) (o.seq.foldl mergeStep R) :=
      consistent_foldl_mergeStep o.seq R s.seq hcon1
    have hperm : (o.seq.reverse ++ s.seq).Perm (s.seq ++ o.seq) := by
      have h1 : (o.seq.reverse ++ s.seq).Perm (o.seq ++ s.seq) :=
        (o.seq.reverse_perm).append_right s.seq
      exact h1.trans List.perm_append_comm
    have hcon3 : Consistent (s.seq ++ o.seq) (o.seq.foldl mergeStep R) :=
      consistent_perm _ _ _ hperm hcon2
    have hcon4 : Consistent (s.seq ++ o.seq)
        (rebalanceMedian (o.seq.foldl mergeStep R)) :=
      consistent_rebalance _ _ hcon3
    have hseq : (rebalanceMedian (o.seq.foldl mergeStep R)).seq
        = s.seq ++ o.seq := by
      simp only [rebalanceMedian_seq, foldl_mergeStep_seq, hR]
    have hsz : (rebalanceMedian (o.seq.foldl mergeStep R)).sz = s.sz + o.sz := by
      simp only [rebalanceMedian_sz, foldl_mergeStep_sz, hR]
    have hnid : (rebalanceMedian (o.seq.foldl mergeStep R)).nextId
        = max s.nextId o.nextId := by
      simp only [rebalanceMedian_nextId, foldl_mergeStep_nextId, hR]
    have hpool : (rebalanceMedian (o.seq.foldl mergeStep R)).pool
        = s.pool ++ o.seq.map Prod.fst := by
      simp only [rebalanceMedian_pool, foldl_mergeStep_pool, hR]
    refine ⟨?_, ?_, ?_, ?_, ?_, ?_⟩
    · rw [hseq]
      exact hcon4
    · rw [hseq, hsz, List.length_append]
      have h1 := hs.sz_ge
      have h2 := ho.sz_ge
      omega
    · rw [hseq, List.map_append]
      exact List.nodup_append.mpr ⟨hs.ids_nodup, ho.ids_nodup,
        fun a ha hb => hdisj a ha hb⟩
    · rw [hseq, hnid]
      intro j hj
      rw [List.map_append, List.mem_append] at hj
      cases hj with
      | inl h => exact lt_of_lt_of_le (hs.ids_lt j h) (le_max_left _ _)
      | inr h => exact lt_of_lt_of_le (ho.ids_lt j h) (le_max_right _ _)
    · rw [hseq, hpool, idsM_append]
      rw [show ((s.pool ++ o.seq.map Prod.fst : List Nat) : Multiset Nat)
            = (s.pool : Multiset Nat) + (o.seq.map Prod.fst : Multiset Nat)
          from rfl]
      exact add_le_add hs.pool_sub (le_refl _)
    · rw [hpool, hsz, List.length_append, List.length_map]
      have h1 := hs.pool_le
      have h2 := ho.sz_ge
      omega

theorem inv_mergeRight (s o : DS) (ho : Inv o) : Inv (mergeDS s o).2 := by
  by_cases hz : o.sz = 0
  · simp only [mergeDS, if_pos hz]
    exact ho
  · simp only [mergeDS, if_neg hz]
    exact inv_clearDS o

theorem inv_splitPair (s : DS) (k : Nat) (hInv : Inv s) :
    Inv (splitDS s k).1 ∧ Inv (splitDS s k).2 := by
  simp only [splitDS]
  by_cases h1 : s.sz ≤ k
  · rw [if_pos h1]
    exact ⟨hInv, inv_emptyDS⟩
  · rw [if_neg h1]
    by_cases h2 : k = 0
    · rw [if_pos h2]
      constructor
      · show Inv (mergeDS emptyDS s).2
        exact inv_mergeRight emptyDS s hInv
      · show Inv (mergeDS emptyDS s).1
        apply inv_mergeLeft emptyDS s inv_emptyDS hInv
        intro i hi
        simp [emptyDS] at hi
    · rw [if_neg h2]
      constructor
      · apply inv_rebuildAll
        · show ((s.seq.take k).map Prod.fst).Nodup
          exact List.Nodup.sublist ((List.take_sublist k s.seq).map Prod.fst)
            hInv.ids_nodup
        · intro j hj
          show j < s.nextId
          exact hInv.ids_lt j (((List.take_sublist k s.seq).map Prod.fst).subset hj)
      · apply inv_rebuildAll
        · show ((s.seq.drop k).map Prod.fst).Nodup
          exact List.Nodup.sublist ((List.drop_sublist k s.seq).map Prod.fst)
            hInv.ids_nodup
        · intro j hj
          show j < s.nextId
          exact hInv.ids_lt j (((List.drop_sublist k s.seq).map Prod.fst).subset hj)

theorem cons_sublist_split (p : Slot) (A : List Slot) :
    ∀ (t B : List Slot), p ∉ A → (p :: t).Sublist (A ++ p :: B) →
      t.Sublist (A ++ B) := by
  induction A with
  | nil =>
      intro t B _ hsub
      rw [List.nil_append] at hsub ⊢
      exact List.cons_sublist_cons.mp hsub
  | cons a A2 ih =>
      intro t B hpA hsub
      have hpa : p ≠ a := fun h => hpA (h ▸ List.mem_cons_self a A2)
      rw [List.cons_append] at hsub
      cases hsub with
      | cons _ h =>
          have h2 := ih t B (fun hm => hpA (List.mem_cons_of_mem _ hm)) h
          rw [List.cons_append]
          exact h2.trans (List.sublist_cons_self _ _)
      | cons₂ h => exact absurd rfl hpa

theorem inv_removeDupGo (rest : List Slot) :
    ∀ (seen : Finset Int) (s : DS), Inv s → rest.Sublist s.seq →
      Inv (removeDupGo rest seen s) := by
  induction rest with
  | nil =>
      intro seen s hInv _
      exact hInv
  | cons p t ih =>
      intro seen s hInv hsub
      simp only [removeDupGo]
      by_cases hseen : p.2 ∈ seen
      · rw [if_pos hseen]
        have hmem : p ∈ s.seq := hsub.subset (List.mem_cons_self p t)
        have hmem2 : (p.1, p.2) ∈ s.seq := by
          rw [Prod.mk.eta]
          exact hmem
        obtain ⟨q1, q2, hq⟩ := List.append_of_mem hmem2
        have hnodup : ((q1 ++ (p.1, p.2) :: q2).map Prod.fst).Nodup := by
          rw [← hq]
          exact hInv.ids_nodup
        have herase : s.seq.eraseP (fun q => q.1 == p.1) = q1 ++ q2 := by
          rw [hq]
          exact eraseP_decomp q1 q2 p.2 p.1 hnodup
        have hInv2 : Inv (removeValueStructures { s with seq := q1 ++ q2 } p.2 p.1) :=
          inv_removeAt s q1 q2 p.2 p.1 hq hInv
        rw [herase]
        apply ih seen _ hInv2
        simp only [removeVS_seq]
        have hpq1 : (p.1, p.2) ∉ q1 := by
          intro hin
          have hids : (List.map Prod.fst q1 ++ p.1 :: List.map Prod.fst q2).Nodup := by
            simpa using hnodup
          obtain ⟨_, _, hdisj⟩ := List.nodup_append.mp hids
          exact hdisj (List.mem_map.mpr ⟨_, hin, rfl⟩) (List.mem_cons_self _ _)
        have hsub2 : (p :: t).Sublist (q1 ++ (p.1, p.2) :: q2) := by
          rw [← hq]
          exact hsub
        rw [Prod.mk.eta] at hsub2 hpq1
        exact cons_sublist_split p q1 t q2 hpq1 hsub2
      · rw [if_neg hseen]
        apply ih _ _ hInv
        exact (List.sublist_cons_self p t).trans hsub

theorem inv_removeDuplicates (s : DS) (hInv : Inv s) :
    Inv (removeDuplicates s) :=
  inv_removeDupGo s.seq ∅ s hInv (List.Sublist.refl _)

theorem inv_reachable (s : DS) (h : Reachable s) : Inv s := by
  induction h with
  | ofEmpty => exact inv_emptyDS
  | ofPushBack s x _ ih => exact inv_pushBack s x ih
  | ofPushFront s x _ ih => exact inv_pushFront s x ih
  | ofPopBack s _ ih => exact inv_popBack s ih
  | ofPopFront s _ ih => exact inv_popFront s ih
  | ofDeleteVal s x pick _ ih => exact inv_deleteVal s x pick ih
  | ofUpdate s a b pick _ ih => exact inv_update s a b pick ih
  | ofReverse s _ ih => exact inv_reverseDS s ih
  | ofRotate s k _ ih => exact inv_rotate s k ih
  | ofRemoveDuplicates s _ ih => exact inv_removeDuplicates s ih
  | ofSortAscending s _ ih => exact inv_sortAscending s ih
  | ofSortDescending s _ ih => exact inv_sortDescending s ih
  | ofNextPermutation s _ ih => exact inv_nextPermutation s ih
  | ofPrevPermutation s _ ih => exact inv_prevPermutation s ih
  | ofMergeLeft s o _ _ hdisj ihs iho => exact inv_mergeLeft s o ihs iho hdisj
  | ofMergeRight s o _ _ _ _ iho => exact inv_mergeRight s o iho
  | ofSplitLeft s k _ ih => exact (inv_splitPair s k ih).1
  | ofSplitRight s k _ ih => exact (inv_splitPair s k ih).2
  | ofClear s _ _ => exact inv_clearDS s

theorem headD_eq_getD (l : List Int) (d : Int) : l.headD d = l.getD 0 d := by
  cases l <;> rfl

theorem getLastD_eq_getD : ∀ (l : List Int) (d : Int), l ≠ [] →
    l.getLastD d = l.getD (l.length - 1) d
  | [], _, h => absurd rfl h
  | [_], _, _ => rfl
  | x :: y :: t, d, _ => by
      show (y :: t).getLastD x = (y :: t).getD t.length d
      rw [getLastD_eq_getD (y :: t) x (List.cons_ne_nil y t)]
      simp only [List.length_cons, Nat.add_sub_cancel]
      rw [List.getD_eq_getElem (y :: t) x (by exact Nat.lt_succ_self t.length),
          List.getD_eq_getElem (y :: t) d (by exact Nat.lt_succ_self t.length)]

/-- The iteration order of a `multiset` holding the union of two blocks,
every element of the first at most every element of the second, is the
first block's order followed by the second's. -/
theorem msort_add_of_cross (lo up : Multiset Int)
    (hcross : ∀ a ∈ lo, ∀ b ∈ up, a ≤ b) :
    msort (lo + up) = msort lo ++ msort up := by
  refine List.eq_of_perm_of_sorted ?_ (msort_sorted _) ?_
  · apply Multiset.coe_eq_coe.mp
    rw [msort_coe]
    rw [show ((msort lo ++ msort up : List Int) : Multiset Int)
          = (msort lo : Multiset Int) + (msort up : Multiset Int) from rfl]
    rw [msort_coe, msort_coe]
  · show List.Pairwise (· ≤ ·) (msort lo ++ msort up)
    refine List.pairwise_append.mpr ⟨msort_sorted lo, msort_sorted up, ?_⟩
    intro a ha b hb
    exact hcross a ((mem_msort lo a).mp ha) b ((mem_msort up b).mp hb)

/-- C3: for every non-empty reachable container, `getMedian()` equals the
textbook median of the stored values — the middle element of the sorted
value sequence for odd length, the exact average of the two middle
elements for even length. -/
theorem C3_median_correctness (s : DS) (hReach : Reachable s)
    (hne : traverse s ≠ []) :
    getMedian s = some (specMedian (traverse s)) := by
  have hInv := inv_reachable s hReach
  have hcon := hInv.con
  have hseqne : s.seq ≠ [] := by
    intro h
    apply hne
    simp [traverse, h]
  have hszne : ¬s.sz = 0 := by
    have h1 := hInv.sz_ge
    have h2 : 0 < s.seq.length := List.length_pos.mpr hseqne
    omega
  have hmed := hcon.med_sum
  have hL : List.insertionSort (· ≤ ·) (traverse s)
      = msort s.lower ++ msort s.upper := by
    rw [← msort_add_of_cross s.lower s.upper hcon.med_cross, hmed]
    exact rfl
  have hlenlo : (msort s.lower).length = Multiset.card s.lower := msort_length _
  have hn : (traverse s).length
      = Multiset.card s.lower + Multiset.card s.upper := by
    have h1 : Multiset.card (s.lower + s.upper) = (traverse s).length := by
      rw [hmed]
      rfl
    rw [Multiset.card_add] at h1
    omega
  have hle := hcon.med_le
  have hge := hcon.med_ge
  have hnpos : 0 < (traverse s).length := List.length_pos.mpr hne
  simp only [getMedian]
  rw [if_neg hszne]
  by_cases hc : Multiset.card s.upper < Multiset.card s.lower
  · rw [if_pos hc]
    have hlo : Multiset.card s.lower = Multiset.card s.upper + 1 := by omega
    have hloz : s.lower ≠ 0 := by
      intro h0
      rw [h0] at hlo
      simp at hlo
    have hodd : (traverse s).length % 2 = 1 := by omega
    simp only [specMedian]
    rw [if_pos hodd]
    have hidx : (traverse s).length / 2 = Multiset.card s.upper := by omega
    rw [hL, hidx]
    have hup_lt : Multiset.card s.upper < (msort s.lower).length := by
      rw [hlenlo]
      omega
    rw [List.getD_append _ _ _ _ hup_lt]
    have hA_ne : msort s.lower ≠ [] := msort_ne_nil _ hloz
    simp only [maxOfM]
    rw [getLastD_eq_getD _ 0 hA_ne, hlenlo, hlo, Nat.add_sub_cancel]
  · rw [if_neg hc]
    have heq : Multiset.card s.lower = Multiset.card s.upper := by omega
    have hupz : s.upper ≠ 0 := by
      intro h0
      rw [h0] at hn heq
      simp only [Multiset.card_zero] at hn heq
      omega
    have hloz : s.lower ≠ 0 := by
      intro h0
      rw [h0] at hn heq
      simp only [Multiset.card_zero] at hn heq
      omega
    have heven : ¬(traverse s).length % 2 = 1 := by omega
    simp only [specMedian]
    rw [if_neg heven]
    rw [hL]
    have hclopos : 0 < Multiset.card s.lower := Multiset.card_pos.mpr hloz
    have hidx1 : (traverse s).length / 2 - 1 = Multiset.card s.lower - 1 := by
      omega
    have hidx2 : (traverse s).length / 2 = Multiset.card s.lower := by omega
    rw [hidx1, hidx2]
    have h1lt : Multiset.card s.lower - 1 < (msort s.lower).length := by
      rw [hlenlo]
      omega
    rw [List.getD_append _ _ _ _ h1lt]
    have h2ge : (msort s.lower).length ≤ Multiset.card s.lower := le_of_eq hlenlo
    rw [List.getD_append_right _ _ _ _ h2ge]
    rw [hlenlo, Nat.sub_self]
    have hA_ne : msort s.lower ≠ [] := msort_ne_nil _ hloz
    simp only [maxOfM, minOfM]
    rw [getLastD_eq_getD _ 0 hA_ne, headD_eq_getD, hlenlo]

theorem C3_median_correctness_witness :
    traverse (pushBack (pushBack emptyDS 1) 5) ≠ [] ∧
      getMedian (pushBack (pushBack emptyDS 1) 5)
        = some (specMedian (traverse (pushBack (pushBack emptyDS 1) 5))) :=
  ⟨by decide,
    C3_median_correctness (pushBack (pushBack emptyDS 1) 5)
      (Reachable.ofPushBack _ 5 (Reachable.ofPushBack _ 1 Reachable.ofEmpty))
      (by decide)⟩

/-- C4: for every non-empty reachable container, `getMode()` is a stored
value of maximal occurrence count, the smallest among the tied ones —
i.e. the mode cursor agrees with brute-force frequency counting. -/
theorem C4_mode_correctness (s : DS) (hReach : Reachable s)
    (hne : traverse s ≠ []) : IsModeOf s (getMode s) := by
  have hInv := inv_reachable s hReach
  have hmo := hInv.con.mode_ok
  have hm0 : valsM s.seq ≠ 0 := by
    intro h0
    exact hne ((Multiset.coe_eq_zero (traverse s)).mp h0)
  obtain ⟨hcnt, hall⟩ := hmo.2 hm0
  have hkey : ∀ z : Int, Multiset.count z (valsM s.seq) = (traverse s).count z :=
    fun z => Multiset.coe_count z (traverse s)
  have hpos : 0 < s.modeCnt := by
    obtain ⟨y, hy⟩ := Multiset.exists_mem_of_ne_zero hm0
    have h1 := (hall y hy).1
    have h2 : 0 < Multiset.count y (valsM s.seq) := Multiset.count_pos.mpr hy
    omega
  have hget : getMode s = s.modeVal := by
    simp only [getMode]
    rw [if_neg (by omega : ¬s.modeCnt = 0)]
  rw [hget]
  refine ⟨?_, ?_⟩
  · have h1 : 0 < Multiset.count s.modeVal (valsM s.seq) := by
      rw [hcnt]
      exact hpos
    exact Multiset.mem_coe.mp (Multiset.count_pos.mp h1)
  · intro y hy
    have hym : y ∈ valsM s.seq := Multiset.mem_coe.mpr hy
    have h3 := hall y hym
    refine ⟨?_, ?_⟩
    · rw [← hkey y, ← hkey s.modeVal, hcnt]
      exact h3.1
    · intro hyc
      apply h3.2
      rw [hkey y, hyc, ← hkey s.modeVal, hcnt]

theorem C4_mode_correctness_witness :
    traverse (pushBack (pushBack (pushBack emptyDS 2) 1) 2) ≠ [] ∧
      IsModeOf (pushBack (pushBack (pushBack emptyDS 2) 1) 2)
        (getMode (pushBack (pushBack (pushBack emptyDS 2) 1) 2)) :=
  ⟨by decide,
    C4_mode_correctness (pushBack (pushBack (pushBack emptyDS 2) 1) 2)
      (Reachable.ofPushBack _ 2 (Reachable.ofPushBack _ 1
        (Reachable.ofPushBack _ 2 Reachable.ofEmpty)))
      (by decide)⟩

/-- C8: `merge(other)` appends the donor's sequence after the receiver's
tail (traversal = old receiver sequence ++ old donor sequence, sizes add)
and leaves the donor empty with all its indices cleared; a size-zero donor
makes the call a no-op. -/
theorem C8_merge_behaviour (s o : DS) (hs : Inv s) (ho : Inv o) :
    MergeSpec s o := by
  by_cases hz : o.sz = 0
  · have hnoop : mergeDS s o = (s, o) := by
      simp only [mergeDS, if_pos hz]
    have hoseq : o.seq = [] := by
      have h1 := ho.sz_ge
      rw [hz] at h1
      exact List.eq_nil_of_length_eq_zero (Nat.le_zero.mp h1)
    have hopool : o.pool = [] := by
      have h1 := ho.pool_le
      rw [hz] at h1
      exact List.eq_nil_of_length_eq_zero (Nat.le_zero.mp h1)
    have hvals : o.allVals = 0 := by
      have h1 := ho.con.vals_ok
      rw [hoseq] at h1
      exact h1
    have hmedsum := ho.con.med_sum
    rw [hoseq] at hmedsum
    rw [show valsM ([] : List Slot) = 0 from rfl] at hmedsum
    have hlo : o.lower = 0 := by
      have h1 : o.lower ≤ o.lower + o.upper := Multiset.le_add_right _ _
      rw [hmedsum] at h1
      exact Multiset.le_zero.mp h1
    have hup : o.upper = 0 := by
      have h1 : o.upper ≤ o.lower + o.upper := Multiset.le_add_left _ _
      rw [hmedsum] at h1
      exact Multiset.le_zero.mp h1
    have hfreq : o.freq = [] := by
      cases hf : o.freq with
      | nil => rfl
      | cons p t =>
          obtain ⟨y, c⟩ := p
          exfalso
          have hpos := ho.con.freq_pos (y, c) (by
            rw [hf]
            exact List.mem_cons_self _ t)
          have hpos2 : 0 < c := hpos
          have hok := ho.con.freq_ok y
          rw [hf, hoseq] at hok
          have h2 : freqLookup ((y, c) :: t) y = c := by
            show (if y = y then c else freqLookup t y) = c
            rw [if_pos rfl]
          rw [h2] at hok
          rw [show Multiset.count y (valsM ([] : List Slot)) = 0 from rfl] at hok
          omega
    have hlocs : ∀ x : Int, o.locs x = ∅ := by
      intro x
      apply Finset.eq_empty_iff_forall_not_mem.mpr
      intro i hi
      have h1 := (ho.con.locs_ok x i).mp hi
      rw [hoseq] at h1
      exact absurd h1 (List.not_mem_nil _)
    refine ⟨?_, ?_, ?_, ?_, ?_, ?_, ?_, ?_, ?_, ?_, ?_, fun _ => hnoop⟩
    · rw [hnoop]
      show traverse s = traverse s ++ traverse o
      rw [show traverse o = [] from by simp [traverse, hoseq], List.append_nil]
    · rw [hnoop]
      show s.seq = s.seq ++ o.seq
      rw [hoseq, List.append_nil]
    · rw [hnoop]
      show s.sz = s.sz + o.sz
      omega
    · rw [hnoop]
      exact hoseq
    · rw [hnoop]
      exact hz
    · rw [hnoop]
      exact hfreq
    · rw [hnoop]
      exact hopool
    · rw [hnoop]
      exact hlocs
    · rw [hnoop]
      exact hvals
    · rw [hnoop]
      exact hlo
    · rw [hnoop]
      exact hup
  · have h1 := mergeDS_fst s o hz hs.sz_ge
    have hfst_seq : (mergeDS s o).1.seq = s.seq ++ o.seq := by
      rw [h1]
      simp only [rebalanceMedian_seq, foldl_mergeStep_seq]
    have hfst_sz : (mergeDS s o).1.sz = s.sz + o.sz := by
      rw [h1]
      simp only [rebalanceMedian_sz, foldl_mergeStep_sz]
    have hsnd : (mergeDS s o).2 = clearDS o := by
      simp only [mergeDS, if_neg hz]
    refine ⟨?_, hfst_seq, hfst_sz, ?_, ?_, ?_, ?_, ?_, ?_, ?_, ?_,
      fun h => absurd h hz⟩
    · simp only [traverse, hfst_seq, List.map_append]
    · simp only [hsnd, clearDS]
    · simp only [hsnd, clearDS]
    · simp only [hsnd, clearDS]
    · simp only [hsnd, clearDS]
    · intro x
      simp only [hsnd, clearDS]
    · simp only [hsnd, clearDS]
    · simp only [hsnd, clearDS]
    · simp only [hsnd, clearDS]

theorem C8_merge_behaviour_witness :
    MergeSpec (pushBack emptyDS 1) (pushBack emptyDS 2) :=
  C8_merge_behaviour (pushBack emptyDS 1) (pushBack emptyDS 2)
    (inv_pushBack emptyDS 1 inv_emptyDS) (inv_pushBack emptyDS 2 inv_emptyDS)

theorem valsM_middle (q1 q2 : List Slot) (i : Nat) (x : Int) :
    valsM (q1 ++ (i, x) :: q2) = x ::ₘ valsM (q1 ++ q2) := by
  rw [valsM_perm _ _ (List.perm_middle : (q1 ++ (i, x) :: q2).Perm _)]
  exact valsM_cons i x (q1 ++ q2)

/-- The effect of a successful `update(oldVal, newVal)` on the sequence:
the picked node keeps its identity and position, only its value changes;
the call reports success. -/
theorem update_eq (s : DS) (a b : Int) (pick : Nat) (q1 q2 : List Slot)
    (hg : pick ∈ s.locs a) (hq : s.seq = q1 ++ (pick, a) :: q2)
    (hnodup : (s.seq.map Prod.fst).Nodup) :
    (update s a b pick).1.seq = q1 ++ (pick, b) :: q2 ∧
      (update s a b pick).2 = true := by
  have hnodup2 : ((q1 ++ (pick, a) :: q2).map Prod.fst).Nodup := by
    rw [← hq]
    exact hnodup
  have hmap : s.seq.map (fun p => if p.1 = pick then (p.1, b) else p) =
      q1 ++ (pick, b) :: q2 := by
    rw [hq]
    exact map_setVal q1 q2 a b pick hnodup2
  refine ⟨?_, ?_⟩
  · simp only [update, if_pos hg]
    rw [addVS_seq]
    rw [show (removeTracking s a pick).seq = s.seq from removeTracking_seq s a pick,
        hmap]
  · simp only [update, if_pos hg]

/-- C6 counterexample: on the container `[20, 10]`, `update(10, 20)`
(necessarily picking node 1) followed by `update(20, 10)` picking node 0 —
which is what `*locs[20].begin()` yields, node 0 being the smallest member
of the ordered set — succeeds twice yet leaves the traversal `[10, 20]`,
not the original `[20, 10]`: the round trip does not restore the sequence
order when the intermediate value collides with an already-stored value. -/
theorem C6_update_roundtrip_cex :
    (update (pushBack (pushBack emptyDS 20) 10) 10 20 1).2 = true ∧
    (update (update (pushBack (pushBack emptyDS 20) 10) 10 20 1).1 20 10 0).2
      = true ∧
    ¬ traverse
        (update (update (pushBack (pushBack emptyDS 20) 10) 10 20 1).1 20 10 0).1
      = traverse (pushBack (pushBack emptyDS 20) 10) := by
  decide

/-- C6 (amended): on any invariant-satisfying container, a successful
`update(a, b)` followed by any successful `update(b, a)` restores the
frequency of every value; the sequence order is also restored provided `b`
was not already stored before the first call (without that proviso the
second call may relocate a different node — see the counterexample). -/
theorem C6_update_roundtrip (s : DS) (a b : Int) (pick pick2 : Nat)
    (hInv : Inv s) (hp : pick ∈ s.locs a)
    (hp2 : pick2 ∈ (update s a b pick).1.locs b) :
    (update s a b pick).2 = true ∧
    (update (update s a b pick).1 b a pick2).2 = true ∧
    (∀ x : Int,
      getFrequency (update (update s a b pick).1 b a pick2).1 x
        = getFrequency s x) ∧
    (getFrequency s b = 0 →
      traverse (update (update s a b pick).1 b a pick2).1 = traverse s) := by
  have hmem : (pick, a) ∈ s.seq := (hInv.con.locs_ok a pick).mp hp
  obtain ⟨q1, q2, hq⟩ := List.append_of_mem hmem
  obtain ⟨hseq1, hret1⟩ := update_eq s a b pick q1 q2 hp hq hInv.ids_nodup
  have hInv1 : Inv (update s a b pick).1 := inv_update s a b pick hInv
  have hmem2 : (pick2, b) ∈ (update s a b pick).1.seq :=
    (hInv1.con.locs_ok b pick2).mp hp2
  obtain ⟨r1, r2, hr⟩ := List.append_of_mem hmem2
  obtain ⟨hseq2, hret2⟩ :=
    update_eq (update s a b pick).1 b a pick2 r1 r2 hp2 hr hInv1.ids_nodup
  have hInv2 : Inv (update (update s a b pick).1 b a pick2).1 :=
    inv_update _ b a pick2 hInv1
  have hv1 : valsM (update s a b pick).1.seq = b ::ₘ valsM (q1 ++ q2) := by
    rw [hseq1, valsM_middle]
  have hv1' : valsM (update s a b pick).1.seq = b ::ₘ valsM (r1 ++ r2) := by
    rw [hr, valsM_middle]
  have hQR : valsM (q1 ++ q2) = valsM (r1 ++ r2) :=
    (Multiset.cons_inj_right b).mp (hv1.symm.trans hv1')
  have hv2 : valsM (update (update s a b pick).1 b a pick2).1.seq
      = valsM s.seq := by
    rw [hseq2, valsM_middle, ← hQR, ← valsM_middle q1 q2 pick a, ← hq]
  refine ⟨hret1, hret2, ?_, ?_⟩
  · intro x
    simp only [getFrequency]
    rw [hInv2.con.freq_ok x, hInv.con.freq_ok x, hv2]
  · intro hfb
    have hcount : Multiset.count b (valsM s.seq) = 0 := by
      rw [← hInv.con.freq_ok b]
      exact hfb
    have hbnot : b ∉ valsM (q1 ++ q2) := by
      intro hin
      have h1 : b ∈ valsM s.seq := by
        rw [hq, valsM_middle]
        exact Multiset.mem_cons_of_mem hin
      rw [← Multiset.count_pos] at h1
      omega
    have hmem2' : (pick2, b) ∈ q1 ++ (pick, b) :: q2 := by
      rw [← hseq1]
      exact hmem2
    have hpick : pick2 = pick := by
      rcases List.mem_append.mp hmem2' with h | h
      · exact absurd (Multiset.mem_coe.mpr (List.mem_map.mpr
          ⟨(pick2, b), List.mem_append_left _ h, rfl⟩)) hbnot
      · rcases List.mem_cons.mp h with h2 | h2
        · exact congrArg Prod.fst h2
        · exact absurd (Multiset.mem_coe.mpr (List.mem_map.mpr
            ⟨(pick2, b), List.mem_append_right _ h2, rfl⟩)) hbnot
    subst hpick
    obtain ⟨hseq2', _⟩ :=
      update_eq (update s a b pick2).1 b a pick2 q1 q2 hp2 hseq1 hInv1.ids_nodup
    simp only [traverse]
    rw [hseq2', hq]

theorem C6_update_roundtrip_witness :
    (update (pushBack emptyDS 7) 7 9 0).2 = true ∧
    (update (update (pushBack emptyDS 7) 7 9 0).1 9 7 0).2 = true ∧
    (∀ x : Int,
      getFrequency (update (update (pushBack emptyDS 7) 7 9 0).1 9 7 0).1 x
        = getFrequency (pushBack emptyDS 7) x) ∧
    (getFrequency (pushBack emptyDS 7) 9 = 0 →
      traverse (update (update (pushBack emptyDS 7) 7 9 0).1 9 7 0).1
        = traverse (pushBack emptyDS 7)) :=
  C6_update_roundtrip (pushBack emptyDS 7) 7 9 0 0
    (inv_pushBack emptyDS 7 inv_emptyDS) (by decide) (by decide)

theorem mem_sortedPerms (l m : List Int) : m ∈ sortedPerms l ↔ m.Perm l := by
  simp only [sortedPerms]
  rw [(List.perm_insertionSort (· ≤ ·) l.permutations'.dedup).mem_iff]
  rw [List.mem_dedup]
  exact List.mem_permutations'

theorem nodup_sortedPerms (l : List Int) : (sortedPerms l).Nodup :=
  ((List.perm_insertionSort (· ≤ ·) l.permutations'.dedup).symm).nodup
    l.permutations'.nodup_dedup

theorem sorted_sortedPerms (l : List Int) :
    List.Sorted (· ≤ ·) (sortedPerms l) :=
  List.sorted_insertionSort _ _

theorem sortedPerms_chain (l : List Int) :
    List.Pairwise (· < ·) (sortedPerms l) :=
  List.Sorted.lt_of_le (sorted_sortedPerms l) (nodup_sortedPerms l)

theorem sortedPerms_ne_nil (l : List Int) : sortedPerms l ≠ [] := by
  intro h
  have h1 : l ∈ sortedPerms l := (mem_sortedPerms l l).mpr (List.Perm.refl l)
  rw [h] at h1
  exact absurd h1 (List.not_mem_nil _)

/-- A sorted list is the lexicographically least arrangement of its
multiset. -/
theorem sorted_le_of_perm : ∀ (u v : List Int),
    List.Sorted (· ≤ ·) u → u.Perm v → u ≤ v
  | [], _, _, _ => List.nil_le
  | a :: u', v, hs, hp => by
      cases v with
      | nil => exact absurd hp.eq_nil (by simp)
      | cons b v' =>
          have hab : a ≤ b := by
            have hbmem : b ∈ a :: u' := hp.symm.subset (List.mem_cons_self b v')
            rcases List.mem_cons.mp hbmem with h | h
            · exact le_of_eq h.symm
            · exact (List.sorted_cons.mp hs).1 b h
          rcases lt_or_eq_of_le hab with hlt | heq
          · exact le_of_lt (List.Lex.rel hlt)
          · subst heq
            have hu' : u' ≤ v' :=
              sorted_le_of_perm u' v' (List.sorted_cons.mp hs).2 hp.cons_inv
            rcases lt_or_eq_of_le hu' with h2 | h2
            · exact le_of_lt (List.Lex.cons h2)
            · rw [h2]

theorem perm_eq_of_length_le_one (l m : List Int) (h : l.length ≤ 1)
    (hp : m.Perm l) : m = l := by
  cases l with
  | nil => exact hp.eq_nil
  | cons a t =>
      cases t with
      | nil => exact List.perm_singleton.mp hp
      | cons b t2 => simp at h

theorem nextPermList_short (l : List Int) (h : l.length ≤ 1) :
    nextPermList l = (l, false) := by
  have hfilter : l.permutations'.filter (fun m => decide (l < m)) = [] := by
    apply List.filter_eq_nil_iff.mpr
    intro m hm
    have hml : m = l :=
      perm_eq_of_length_le_one l m h (List.mem_permutations'.mp hm)
    subst hml
    simp
  simp only [nextPermList, hfilter, List.min?_nil]
  show (List.insertionSort (· ≤ ·) l, false) = (l, false)
  have hsort : List.insertionSort (· ≤ ·) l = l := by
    cases l with
    | nil => rfl
    | cons a t =>
        cases t with
        | nil => rfl
        | cons b t2 => simp at h
  rw [hsort]

theorem sortedPerms_head (l : List Int) :
    (sortedPerms l).getD 0 [] = List.insertionSort (· ≤ ·) l := by
  have hl0 : List.insertionSort (· ≤ ·) l ∈ sortedPerms l :=
    (mem_sortedPerms _ _).mpr (List.perm_insertionSort _ _)
  have hpos : 0 < (sortedPerms l).length :=
    List.length_pos.mpr (sortedPerms_ne_nil l)
  have h0mem : (sortedPerms l).getD 0 [] ∈ sortedPerms l := by
    rw [List.getD_eq_getElem _ _ hpos]
    exact List.getElem_mem hpos
  have hmin : ∀ b ∈ sortedPerms l, (sortedPerms l).getD 0 [] ≤ b := by
    intro b hb
    obtain ⟨j, hj, hbj⟩ := List.getElem_of_mem hb
    rw [List.getD_eq_getElem _ _ hpos, ← hbj]
    rcases Nat.eq_zero_or_pos j with h2 | h2
    · subst h2
      exact le_refl _
    · exact le_of_lt
        (List.pairwise_iff_getElem.mp (sortedPerms_chain l) 0 j hpos hj h2)
  have hle : List.insertionSort (· ≤ ·) l ≤ (sortedPerms l).getD 0 [] :=
    sorted_le_of_perm _ _ (List.sorted_insertionSort _ _)
      ((List.perm_insertionSort _ _).trans
        ((mem_sortedPerms _ _).mp h0mem).symm)
  exact le_antisymm (hmin _ hl0) hle

/-- Successor step of the lexicographic enumeration: on a non-final entry
of `sortedPerms`, `std::next_permutation` moves to the next entry and
reports true. -/
theorem sortedPerms_succ (l : List Int) (i : Nat)
    (hi : i + 1 < (sortedPerms l).length) :
    nextPermList ((sortedPerms l).getD i []) =
      ((sortedPerms l).getD (i + 1) [], true) := by
  have hiP : i < (sortedPerms l).length := by omega
  have hchain := List.pairwise_iff_getElem.mp (sortedPerms_chain l)
  have hxg : (sortedPerms l).getD i [] = (sortedPerms l)[i] :=
    List.getD_eq_getElem _ _ hiP
  have hyg : (sortedPerms l).getD (i + 1) [] = (sortedPerms l)[i + 1] :=
    List.getD_eq_getElem _ _ hi
  have hxmem : (sortedPerms l).getD i [] ∈ sortedPerms l := by
    rw [hxg]
    exact List.getElem_mem hiP
  have hymem : (sortedPerms l).getD (i + 1) [] ∈ sortedPerms l := by
    rw [hyg]
    exact List.getElem_mem hi
  have hxPerm : ((sortedPerms l).getD i []).Perm l :=
    (mem_sortedPerms _ _).mp hxmem
  have hyPerm : ((sortedPerms l).getD (i + 1) []).Perm l :=
    (mem_sortedPerms _ _).mp hymem
  have hxy : (sortedPerms l).getD i [] < (sortedPerms l).getD (i + 1) [] := by
    rw [hxg, hyg]
    exact hchain i (i + 1) hiP hi (Nat.lt_succ_self i)
  have hyG : (sortedPerms l).getD (i + 1) [] ∈
      ((sortedPerms l).getD i []).permutations'.filter
        (fun m => decide ((sortedPerms l).getD i [] < m)) := by
    apply List.mem_filter.mpr
    exact ⟨List.mem_permutations'.mpr (hyPerm.trans hxPerm.symm),
      decide_eq_true hxy⟩
  have hlb : ∀ b ∈ ((sortedPerms l).getD i []).permutations'.filter
      (fun m => decide ((sortedPerms l).getD i [] < m)),
      (sortedPerms l).getD (i + 1) [] ≤ b := by
    intro b hb
    obtain ⟨hbp, hbd⟩ := List.mem_filter.mp hb
    have hblt : (sortedPerms l).getD i [] < b := of_decide_eq_true hbd
    have hbPerm : b.Perm l := (List.mem_permutations'.mp hbp).trans hxPerm
    have hbmem : b ∈ sortedPerms l := (mem_sortedPerms _ _).mpr hbPerm
    obtain ⟨j, hj, hbj⟩ := List.getElem_of_mem hbmem
    have hij : i < j := by
      rcases Nat.lt_trichotomy i j with h2 | h2 | h2
      · exact h2
      · exfalso
        subst h2
        rw [hxg, ← hbj] at hblt
        exact absurd hblt (lt_irrefl _)
      · exfalso
        have hc := hchain j i hj hiP h2
        rw [hbj, ← hxg] at hc
        exact absurd hblt (lt_asymm hc)
    rcases Nat.eq_or_lt_of_le hij with h2 | h2
    · rw [hyg, ← hbj]
      subst h2
      exact le_refl _
    · rw [hyg, ← hbj]
      exact le_of_lt (hchain (i + 1) j hi hj h2)
  haveI : Std.Antisymm (fun (x y : List Int) => x ≤ y) :=
    ⟨fun h1 h2 => le_antisymm h1 h2⟩
  have hmin : (((sortedPerms l).getD i []).permutations'.filter
      (fun m => decide ((sortedPerms l).getD i [] < m))).min?
        = some ((sortedPerms l).getD (i + 1) []) :=
    (List.min?_eq_some_iff (fun x => le_refl x) (fun x y => min_choice x y)
      (fun x y z => le_min_iff)).mpr ⟨hyG, hlb⟩
  simp only [nextPermList, hmin]

/-- Final step: on the last entry of `sortedPerms` (the descending
arrangement), `std::next_permutation` resets to the ascending arrangement
and reports false. -/
theorem sortedPerms_last (l : List Int) :
    nextPermList ((sortedPerms l).getD ((sortedPerms l).length - 1) []) =
      (List.insertionSort (· ≤ ·) l, false) := by
  have hpos : 0 < (sortedPerms l).length :=
    List.length_pos.mpr (sortedPerms_ne_nil l)
  have hlast : (sortedPerms l).length - 1 < (sortedPerms l).length := by omega
  have hchain := List.pairwise_iff_getElem.mp (sortedPerms_chain l)
  have hxg : (sortedPerms l).getD ((sortedPerms l).length - 1) []
      = (sortedPerms l)[(sortedPerms l).length - 1] :=
    List.getD_eq_getElem _ _ hlast
  have hxmem : (sortedPerms l).getD ((sortedPerms l).length - 1) []
      ∈ sortedPerms l := by
    rw [hxg]
    exact List.getElem_mem hlast
  have hxPerm : ((sortedPerms l).getD ((sortedPerms l).length - 1) []).Perm l :=
    (mem_sortedPerms _ _).mp hxmem
  have hempty : List.filter
      (fun m => decide
        ((sortedPerms l).getD ((sortedPerms l).length - 1) [] < m))
      ((sortedPerms l).getD ((sortedPerms l).length - 1) []).permutations'
        = [] := by
    apply List.filter_eq_nil_iff.mpr
    intro m hm
    have hmPerm : m.Perm l := (List.mem_permutations'.mp hm).trans hxPerm
    have hmmem : m ∈ sortedPerms l := (mem_sortedPerms _ _).mpr hmPerm
    obtain ⟨j, hj, hmj⟩ := List.getElem_of_mem hmmem
    have hmle : m ≤ (sortedPerms l).getD ((sortedPerms l).length - 1) [] := by
      rcases Nat.lt_or_ge j ((sortedPerms l).length - 1) with h2 | h2
      · rw [hxg, ← hmj]
        exact le_of_lt (hchain j _ hj hlast h2)
      · have h3 : j = (sortedPerms l).length - 1 := by omega
        subst h3
        rw [hxg, ← hmj]
    intro hdec
    exact absurd (of_decide_eq_true hdec) (not_lt.mpr hmle)
  simp only [nextPermList, hempty, List.min?_nil]
  show (List.insertionSort (· ≤ ·)
      ((sortedPerms l).getD ((sortedPerms l).length - 1) []), false) = _
  have hsort : List.insertionSort (· ≤ ·)
      ((sortedPerms l).getD ((sortedPerms l).length - 1) [])
        = List.insertionSort (· ≤ ·) l :=
    List.eq_of_perm_of_sorted
      (((List.perm_insertionSort _ _).trans hxPerm).trans
        (List.perm_insertionSort _ _).symm)
      (List.sorted_insertionSort _ _) (List.sorted_insertionSort _ _)
  rw [hsort]

theorem iterPermList_enum (l : List Int) :
    ∀ i, i < (sortedPerms l).length →
      iterPermList (List.insertionSort (· ≤ ·) l) i
        = (sortedPerms l).getD i [] := by
  intro i
  induction i with
  | zero =>
      intro _
      show List.insertionSort (· ≤ ·) l = _
      rw [sortedPerms_head]
  | succ n ih =>
      intro hn1
      have hn : n < (sortedPerms l).length := by omega
      show (nextPermList (iterPermList (List.insertionSort (· ≤ ·) l) n)).1 = _
      rw [ih hn, sortedPerms_succ l n hn1]

theorem iterPermList_ret_true (l : List Int) (i : Nat)
    (hi : i + 1 < (sortedPerms l).length) :
    (nextPermList (iterPermList (List.insertionSort (· ≤ ·) l) i)).2 = true := by
  rw [iterPermList_enum l i (by omega), sortedPerms_succ l i hi]

theorem iterPermList_ret_false (l : List Int) :
    (nextPermList (iterPermList (List.insertionSort (· ≤ ·) l)
        ((sortedPerms l).length - 1))).2 = false := by
  have hpos : 0 < (sortedPerms l).length :=
    List.length_pos.mpr (sortedPerms_ne_nil l)
  rw [iterPermList_enum l _ (by omega), sortedPerms_last]

theorem iterPermList_wrap (l : List Int) :
    iterPermList (List.insertionSort (· ≤ ·) l) (sortedPerms l).length
      = List.insertionSort (· ≤ ·) l := by
  have hpos : 0 < (sortedPerms l).length :=
    List.length_pos.mpr (sortedPerms_ne_nil l)
  rw [show (sortedPerms l).length = ((sortedPerms l).length - 1) + 1 from by omega]
  show (nextPermList (iterPermList (List.insertionSort (· ≤ ·) l)
      ((sortedPerms l).length - 1))).1 = _
  rw [iterPermList_enum l _ (by omega), sortedPerms_last]

theorem nextPermutation_traverse (t : DS) (hInv : Inv t) :
    traverse (nextPermutation t).1 = (nextPermList (traverse t)).1 ∧
      (nextPermutation t).2 = (nextPermList (traverse t)).2 := by
  simp only [nextPermutation]
  by_cases h1 : t.sz ≤ 1
  · rw [if_pos h1]
    have hlen : (traverse t).length ≤ 1 := by
      have h2 := hInv.sz_ge
      have h3 : (traverse t).length = t.seq.length := by
        simp [traverse]
      omega
    rw [nextPermList_short (traverse t) hlen]
    exact ⟨rfl, rfl⟩
  · rw [if_neg h1]
    constructor
    · show traverse (rebuildAll (writeBack t (nextPermList (traverse t)).1)) = _
      simp only [traverse, rebuildAll_seq]
      show (writeBack t (nextPermList (traverse t)).1).seq.map Prod.snd = _
      exact zip_keepFst_snd t.seq _ (by
        rw [nextPermList_length]
        simp [traverse])
    · rfl

theorem iterNext_traverse (t : DS) (hInv : Inv t) :
    ∀ n, traverse (iterNext t n) = iterPermList (traverse t) n ∧
      Inv (iterNext t n)
  | 0 => ⟨rfl, hInv⟩
  | n + 1 => by
      obtain ⟨h1, h2⟩ := iterNext_traverse t hInv n
      refine ⟨?_, inv_nextPermutation _ h2⟩
      show traverse (nextPermutation (iterNext t n)).1
          = (nextPermList (iterPermList (traverse t) n)).1
      rw [(nextPermutation_traverse _ h2).1, h1]

theorem prevPermutation_ret (s : DS) (hInv : Inv s) :
    (prevPermutation s).2 = true ↔
      ∃ m, m.Perm (traverse s) ∧ m < traverse s := by
  simp only [prevPermutation]
  by_cases h1 : s.sz ≤ 1
  · rw [if_pos h1]
    have hlen : (traverse s).length ≤ 1 := by
      have h2 := hInv.sz_ge
      have h3 : (traverse s).length = s.seq.length := by
        simp [traverse]
      omega
    constructor
    · intro h
      exact absurd h (by simp)
    · rintro ⟨m, hm, hlt⟩
      have hml : m = traverse s := perm_eq_of_length_le_one _ m hlen hm
      rw [hml] at hlt
      exact absurd hlt (lt_irrefl _)
  · rw [if_neg h1]
    show (prevPermList (traverse s)).2 = true ↔ _
    cases hm : ((traverse s).permutations'.filter
        (fun m => decide (m < traverse s))).max? with
    | none =>
        have hempty : (traverse s).permutations'.filter
            (fun m => decide (m < traverse s)) = [] :=
          List.max?_eq_none_iff.mp hm
        simp only [prevPermList, hm]
        constructor
        · intro h
          exact absurd h (by simp)
        · rintro ⟨m, hperm, hlt⟩
          have hmem : m ∈ (traverse s).permutations'.filter
              (fun m => decide (m < traverse s)) :=
            List.mem_filter.mpr
              ⟨List.mem_permutations'.mpr hperm, decide_eq_true hlt⟩
          rw [hempty] at hmem
          exact absurd hmem (List.not_mem_nil _)
    | some m0 =>
        simp only [prevPermList, hm]
        constructor
        · intro _
          have hmem := List.max?_mem (fun a b => max_choice a b) hm
          obtain ⟨hp, hd⟩ := List.mem_filter.mp hmem
          exact ⟨m0, List.mem_permutations'.mp hp, of_decide_eq_true hd⟩
        · intro _
          trivial

/-- C5 counterexample: on the container `[1, 2]` (already ascending), the
first `nextPermutation` succeeds, the second returns false — and the
sequence it leaves behind is the ASCENDING `[1, 2]` (the standard
`std::next_permutation` wrap-around), not the descending `[2, 1]` that the
claim asserts for the state after the false-returning call. -/
theorem C5_permutation_cycle_cex :
    (nextPermutation (pushBack (pushBack emptyDS 1) 2)).2 = true ∧
    (nextPermutation (nextPermutation (pushBack (pushBack emptyDS 1) 2)).1).2
      = false ∧
    traverse (nextPermutation
        (nextPermutation (pushBack (pushBack emptyDS 1) 2)).1).1 = [1, 2] ∧
    ¬ traverse (nextPermutation
        (nextPermutation (pushBack (pushBack emptyDS 1) 2)).1).1 = [2, 1] := by
  decide

/-- C5 (amended): from the ascending-sorted container, `nextPermutation`
visits every distinct permutation of the multiset exactly once in
lexicographic order, returning true until the last permutation, on which
it returns false and resets the sequence to ASCENDING order (not
descending); `prevPermutation` returns precisely whether a
lexicographically smaller arrangement of the current sequence exists. -/
theorem C5_permutation_cycle (s : DS) (hReach : Reachable s) :
    PermCycleSpec s := by
  have hInv := inv_reachable s hReach
  have hInvA : Inv (sortAscending s) := inv_sortAscending s hInv
  have htrav : traverse (sortAscending s)
      = List.insertionSort (· ≤ ·) (traverse s) :=
    (sortAscending_spec s hInv.sz_ge).1
  refine ⟨?_, ?_, ?_, ?_, prevPermutation_ret s hInv⟩
  · intro i hi
    rw [(iterNext_traverse _ hInvA i).1, htrav, iterPermList_enum _ i hi]
  · intro i hi
    have h2 := (iterNext_traverse _ hInvA i).2
    rw [(nextPermutation_traverse _ h2).2, (iterNext_traverse _ hInvA i).1,
      htrav]
    exact iterPermList_ret_true _ i hi
  · have h2 := (iterNext_traverse _ hInvA
      ((sortedPerms (traverse s)).length - 1)).2
    rw [(nextPermutation_traverse _ h2).2,
      (iterNext_traverse _ hInvA ((sortedPerms (traverse s)).length - 1)).1,
      htrav]
    exact iterPermList_ret_false _
  · rw [(iterNext_traverse _ hInvA (sortedPerms (traverse s)).length).1, htrav]
    exact iterPermList_wrap _

theorem C5_permutation_cycle_witness :
    PermCycleSpec (pushBack (pushBack emptyDS 1) 2) :=
  C5_permutation_cycle (pushBack (pushBack emptyDS 1) 2)
    (Reachable.ofPushBack _ 2 (Reachable.ofPushBack _ 1 Reachable.ofEmpty))

theorem C10_rotate_rotation_witness :
    (pushBack (pushBack (pushBack emptyDS 5) 3) 1).sz =
        (pushBack (pushBack (pushBack emptyDS 5) 3) 1).seq.length ∧
      traverse (rotate (pushBack (pushBack (pushBack emptyDS 5) 3) 1) 1) =
        (traverse (pushBack (pushBack (pushBack emptyDS 5) 3) 1)).drop 2 ++
          (traverse (pushBack (pushBack (pushBack emptyDS 5) 3) 1)).take 2 :=
  ⟨by decide,
    (C10_rotate_rotation (pushBack (pushBack (pushBack emptyDS 5) 3) 1) 1
      (by decide)).1⟩

end AdvDS
